import Mathlib

/-!
# motif_finder: gapped bipartite motif search with IUPAC ambiguity codes

A shallow embedding of `motif_finder.c` and theorems about it.

Conventions of the embedding.
* A byte (`char` / `unsigned char`) is a `Nat`; a memory block or a C string is a
  `List Nat`; the pointer `seq + i` is `seq.drop i`; reading a cell is `List.getD _ _ 0`.
* `int` values that may be negative (`err_left`, `err_right`, `best_end`, `best_mismR`,
  `end`, `ext_end`, the `end` column) are `Int`; offsets that index memory
  (`i`, `j`, `gap`, `n`, `mL`, `mR`, `after`) are `Nat`.  `gap_min`, `gap_max` and `after`
  are thus taken in the non-negative range.  Integer arithmetic is unbounded: C signed
  overflow is undefined behaviour and is left out.
* `malloc`/`realloc` blocks are lists whose length is the capacity; fresh cells hold 0;
  a store outside the block is lost (`List.set`).
* Loops with `break` carry a fuel argument next to the loop test of the source.
* `Best.calls` and `Acc.handed` are ghost logs: the gaps at which the comparator is called
  and the records on which the block `process_seq` runs.  No code reads them.
* An input source is the list of the lines that `getline` returns, line endings included.
-/

namespace MotifFinder

/-! ## The IUPAC table and the comparator -/

/-- The table `IUPAC[256]`: bit masks over A=1, C=2, G=4, T(U)=8; every other byte is 0. -/
def IUPAC (c : Nat) : Nat :=
  match c with
  | 65 => 1 | 97 => 1
  | 67 => 2 | 99 => 2
  | 71 => 4 | 103 => 4
  | 84 => 8 | 116 => 8 | 85 => 8 | 117 => 8
  | 82 => 5 | 114 => 5
  | 89 => 10 | 121 => 10
  | 83 => 6 | 115 => 6
  | 87 => 9 | 119 => 9
  | 75 => 12 | 107 => 12
  | 77 => 3 | 109 => 3
  | 66 => 14 | 98 => 14
  | 68 => 13 | 100 => 13
  | 72 => 11 | 104 => 11
  | 86 => 7 | 118 => 7
  | 78 => 15 | 110 => 15
  | _ => 0

/-- The test `!(IUPAC[p[i]] & IUPAC[t[i]])` of `hamming_iupac`. -/
def mismatchAt (p t : List Nat) (i : Nat) : Bool :=
  (IUPAC (p.getD i 0) &&& IUPAC (t.getD i 0)) == 0

/-- The function `hamming_iupac(p, t, m)`: the counted loop `for (i = 0; i < m; ++i)`. -/
def hamming_iupac (p t : List Nat) (m : Nat) : Nat :=
  (List.range m).foldl (fun mism i => if mismatchAt p t i then mism + 1 else mism) 0

/-! ## The left-anchor scan -/

/-- The result buffer of `scan_left`: the block `*pos`, `*cnt` and `capacity`. -/
structure HitBuf where
  pos : List Nat
  cnt : Nat
  capacity : Nat
  deriving DecidableEq, Repr

/-- The call `realloc(block, size)`: the old cells are kept up to the new size, new cells
hold 0. -/
def realloc (block : List Nat) (size : Nat) : List Nat :=
  block.take size ++ List.replicate (size - block.length) 0

/-- The body of the loop of `scan_left` for one offset `i`. -/
def scan_left_step (seq left : List Nat) (mL : Nat) (err : Int) (b : HitBuf) (i : Nat) :
    HitBuf :=
  if (hamming_iupac left (seq.drop i) mL : Int) ≤ err then
    let b1 : HitBuf :=
      if b.cnt ≥ b.capacity then
        { b with capacity := b.capacity * 2, pos := realloc b.pos (b.capacity * 2) }
      else b
    { b1 with pos := b1.pos.set b1.cnt i, cnt := b1.cnt + 1 }
  else b

/-- The function `scan_left`: `for (int i = 0; i <= n - mL; ++i)` over `int`s, starting from
a fresh block of capacity 128. -/
def scan_left (seq : List Nat) (n : Nat) (left : List Nat) (mL : Nat) (err : Int) : HitBuf :=
  (List.range (Int.toNat ((n : Int) - (mL : Int) + 1))).foldl
    (scan_left_step seq left mL err)
    { pos := List.replicate 128 0, cnt := 0, capacity := 128 }

/-- The hits `(*pos)[0 .. *cnt)` that the caller of `scan_left` reads. -/
def HitBuf.hits (b : HitBuf) : List Nat :=
  (List.range b.cnt).map (fun p => b.pos.getD p 0)

/-! ## The right-anchor search of `main` -/

/-- The locals `best_end`, `best_mismR` of the per-hit search, with a ghost log `calls` of
the gaps at which `hamming_iupac` was called. -/
structure Best where
  best_end : Int
  best_mismR : Int
  calls : List Nat
  deriving DecidableEq, Repr

/-- The right-anchor end `end = j + mR - 1` with `j = i + mL + gap`, an `int`. -/
def right_end (i mL mR gap : Nat) : Int :=
  ((i + mL + gap : Nat) : Int) + (mR : Int) - 1

/-- The test `end >= n` with `n` a `size_t`: the `int` is converted to unsigned, so a
negative `end` compares above every length. -/
def ge_size (x : Int) (n : Nat) : Bool :=
  decide (x < 0) || decide ((n : Int) ≤ x)

/-- The loop `for (int gap = op.gap_min; gap <= op.gap_max; ++gap)` of `main`, from `gap`
on, with the two `break`s. -/
def search_loop (seq : List Nat) (n : Nat) (right : List Nat) (mL mR : Nat) (err_right : Int)
    (gap_max i : Nat) : Nat → Nat → Best → Best
  | 0, _, st => st
  | fuel + 1, gap, st =>
    if gap ≤ gap_max then
      let j := i + mL + gap
      let e := right_end i mL mR gap
      if ge_size e n then st
      else
        let mismR : Int := (hamming_iupac right (seq.drop j) mR : Nat)
        let log := st.calls ++ [gap]
        if mismR ≤ err_right ∧ mismR < st.best_mismR then
          let st1 : Best := { best_end := e, best_mismR := mismR, calls := log }
          if mismR = 0 then st1
          else search_loop seq n right mL mR err_right gap_max i fuel (gap + 1) st1
        else
          search_loop seq n right mL mR err_right gap_max i fuel (gap + 1)
            { st with calls := log }
    else st

/-- The per-hit search of `main`: `best_end = -1, best_mismR = 999`, then the gap loop; the
fuel `gap_max + 1 - gap_min` is the number of gaps in the window. -/
def search_right (seq : List Nat) (n : Nat) (right : List Nat) (mL mR : Nat) (err_right : Int)
    (gap_min gap_max i : Nat) : Best :=
  search_loop seq n right mL mR err_right gap_max i (gap_max + 1 - gap_min) gap_min
    { best_end := -1, best_mismR := 999, calls := [] }

/-- The variant of the gap loop that skips a gap whose right-anchor end is out of bounds
and goes on to the next gap, instead of leaving the loop. -/
def search_loop_skip (seq : List Nat) (n : Nat) (right : List Nat) (mL mR : Nat)
    (err_right : Int) (gap_max i : Nat) : Nat → Nat → Best → Best
  | 0, _, st => st
  | fuel + 1, gap, st =>
    if gap ≤ gap_max then
      let j := i + mL + gap
      let e := right_end i mL mR gap
      if ge_size e n then
        search_loop_skip seq n right mL mR err_right gap_max i fuel (gap + 1) st
      else
        let mismR : Int := (hamming_iupac right (seq.drop j) mR : Nat)
        let log := st.calls ++ [gap]
        if mismR ≤ err_right ∧ mismR < st.best_mismR then
          let st1 : Best := { best_end := e, best_mismR := mismR, calls := log }
          if mismR = 0 then st1
          else search_loop_skip seq n right mL mR err_right gap_max i fuel (gap + 1) st1
        else
          search_loop_skip seq n right mL mR err_right gap_max i fuel (gap + 1)
            { st with calls := log }
    else st

/-- The per-hit search with the skipping gap loop. -/
def search_right_skip (seq : List Nat) (n : Nat) (right : List Nat) (mL mR : Nat)
    (err_right : Int) (gap_min gap_max i : Nat) : Best :=
  search_loop_skip seq n right mL mR err_right gap_max i (gap_max + 1 - gap_min) gap_min
    { best_end := -1, best_mismR := 999, calls := [] }

/-! ## Options, rows and emission -/

/-- The fields of `struct opts` that the matching uses. -/
structure Opts where
  left : List Nat
  right : List Nat
  gap_min : Nat
  gap_max : Nat
  err_left : Int
  err_right : Int
  after : Nat
  deriving DecidableEq, Repr

/-- One written row: the five tab-separated columns. -/
structure Row where
  seq_id : List Nat
  start : Int
  end_col : Int
  mismatch : Int
  motif : List Nat
  deriving DecidableEq, Repr

/-- The C `strlen`: the number of bytes before the first NUL. -/
def strlen (s : List Nat) : Nat :=
  (s.takeWhile (fun c => c != 0)).length

/-- The C `strdup`: a copy of the string, which ends at the first NUL. -/
def strdup (s : List Nat) : List Nat :=
  s.takeWhile (fun c => c != 0)

/-- The C `strcspn(s, reject)`: the length of the initial run of bytes not in `reject`. -/
def strcspn (s reject : List Nat) : Nat :=
  (s.takeWhile (fun c => c != 0 && !(reject.contains c))).length

/-- The C `isspace` in the "C" locale: space, `\t`, `\n`, `\v`, `\f`, `\r`. -/
def isspace (c : Nat) : Bool :=
  c == 32 || (decide (9 ≤ c) && decide (c ≤ 13))

/-- The function `print_seq_id`: skip leading `isspace` bytes, then print
`strcspn(p, " \t\r\n")` bytes. -/
def print_seq_id (header : List Nat) : List Nat :=
  let p := header.dropWhile (fun c => c != 0 && isspace c)
  p.take (strcspn p [32, 9, 13, 10])

/-- The value of `ext_end` after `if (ext_end >= n) ext_end = n - 1`. -/
def ext_end (best_end : Int) (after n : Nat) : Int :=
  if ge_size (best_end + (after : Int)) n then (n : Int) - 1 else best_end + (after : Int)

/-- The call `fwrite(ptr, 1, count, out)`: the first `count` bytes at `ptr`; the `int`
count is never negative for a returned match. -/
def fwrite (ptr : List Nat) (count : Int) : List Nat :=
  ptr.take count.toNat

/-- The row printed for the hit `i` inside `if (best_end != -1)`. -/
def emit_row (op : Opts) (mL : Nat) (header seq : List Nat) (n i : Nat) (st : Best) : Row :=
  let x := ext_end st.best_end op.after n
  { seq_id := print_seq_id (header.drop 1)
    start := (i : Int) + 1
    end_col := x + 1 - (op.after : Int)
    mismatch := (hamming_iupac op.left (seq.drop i) mL : Nat) + st.best_mismR
    motif := fwrite (seq.drop i) (x - (i : Int) + 1) }

/-- The body of `for (int p = 0; p < cnt; ++p)` of `main` for one `p`. -/
def hit_step (op : Opts) (mL mR : Nat) (header seq : List Nat) (n : Nat) (pos : List Nat)
    (out : List Row) (p : Nat) : List Row :=
  let i := pos.getD p 0
  let st := search_right seq n op.right mL mR op.err_right op.gap_min op.gap_max i
  if st.best_end ≠ -1 then out ++ [emit_row op mL header seq n i st] else out

/-- The rows that the block `process_seq` appends for the record `(header, seq, n)`. -/
def process_rows (op : Opts) (mL mR : Nat) (header seq : List Nat) (n : Nat)
    (out : List Row) : List Row :=
  let b := scan_left seq n op.left mL op.err_left
  (List.range b.cnt).foldl (hit_step op mL mR header seq n b.pos) out

/-! ## The sequence accumulator of `main` -/

/-- The per-source variables of `main` (`header`, `seq`, `cap`, `n`), the rows written so
far, and a ghost log `handed` of the records `(header, seq[0..n))` on which the block
`process_seq` ran. -/
structure Acc where
  header : Option (List Nat)
  seq : List Nat
  cap : Nat
  n : Nat
  out : List Row
  handed : List (List Nat × List Nat)
  deriving DecidableEq, Repr

/-- The call `memcpy(dst + off, src, l)`. -/
def memcpy (dst : List Nat) (off : Nat) (src : List Nat) (l : Nat) : List Nat :=
  (List.range l).foldl (fun d k => d.set (off + k) (src.getD k 0)) dst

/-- The block from the label `process_seq` to `header = strdup(line)`. -/
def process_seq (op : Opts) (mL mR : Nat) (st : Acc) (header line : List Nat) : Acc :=
  { header := some (strdup line)
    seq := []
    cap := 0
    n := 0
    out := process_rows op mL mR header st.seq st.n st.out
    handed := st.handed ++ [(header, st.seq.take st.n)] }

/-- The body of `while (getline(&line, &len, in) != -1)` for one line. -/
def line_step (op : Opts) (mL mR : Nat) (st : Acc) (line : List Nat) : Acc :=
  if line.getD 0 0 = 62 then
    match st.header with
    | some h => process_seq op mL mR st h line
    | none => { st with header := some (strdup line) }
  else
    let l := strcspn line [13, 10]
    let st1 : Acc :=
      if st.n + l + 1 > st.cap then
        { st with cap := (st.n + l + 1) * 2, seq := realloc st.seq ((st.n + l + 1) * 2) }
      else st
    { st1 with seq := memcpy st1.seq st1.n line l, n := st1.n + l }

/-- One input source, given as the lines `getline` returns: the loop, then
`if (header && n) goto process_seq`. -/
def run_source (op : Opts) (mL mR : Nat) (lines : List (List Nat)) (out : List Row) : Acc :=
  let st := lines.foldl (line_step op mL mR)
    { header := none, seq := [], cap := 0, n := 0, out := out, handed := [] }
  match st.header with
  | some h => if st.n ≠ 0 then process_seq op mL mR st h (lines.getLastD []) else st
  | none => st

/-- The output file: the header line, then the rows. -/
structure Output where
  header_line : List Nat
  rows : List Row
  deriving DecidableEq, Repr

/-- The bytes of `"seq_id\tstart\tend\tmismatch\tmotif\n"`. -/
def header_line : List Nat :=
  [115, 101, 113, 95, 105, 100, 9, 115, 116, 97, 114, 116, 9, 101, 110, 100, 9,
   109, 105, 115, 109, 97, 116, 99, 104, 9, 109, 111, 116, 105, 102, 10]

/-- The function `main` after `parse_args`: `none` when the output cannot be opened; a
source that cannot be opened (`none` in `sources`) is skipped. -/
def main (op : Opts) (out_ok : Bool) (sources : List (Option (List (List Nat)))) :
    Option Output :=
  if out_ok then
    let mL := strlen op.left
    let mR := strlen op.right
    some
      { header_line := header_line
        rows := sources.foldl (fun out src =>
          match src with
          | some lines => (run_source op mL mR lines out).out
          | none => out) [] }
  else none

/-- The bytes of a string literal. -/
def bytes (s : String) : List Nat :=
  s.toList.map Char.toNat

/-! ## Invariants and reference definitions used by the theorems -/

/-- The loop invariant of `scan_left`: the block is as long as `capacity`, the count is
within it, and the cells below the count are the list `s`. -/
def ScanInv (b : HitBuf) (s : List Nat) : Prop :=
  b.capacity = b.pos.length ∧ b.cnt ≤ b.capacity ∧ 0 < b.capacity ∧ b.pos.take b.cnt = s

/-- The mismatch count of the right anchor at gap `g` for the hit `i`:
`hamming_iupac(op.right, seq + j, mR)` with `j = i + mL + g`. -/
def ham (seq right : List Nat) (mL mR i g : Nat) : Int :=
  (hamming_iupac right (seq.drop (i + mL + g)) mR : Nat)

/-- The row, if any, that one pass of the loop over the hits writes for the hit `i`. -/
def row_of_hit (op : Opts) (mL mR : Nat) (header seq : List Nat) (n i : Nat) : Option Row :=
  if (search_right seq n op.right mL mR op.err_right op.gap_min op.gap_max i).best_end ≠ -1
  then some (emit_row op mL header seq n i
    (search_right seq n op.right mL mR op.err_right op.gap_min op.gap_max i))
  else none

/-- The invariant of the sequence block of `main`: the block is `cap` bytes long and the
length `n` is within it. -/
def AccInv (st : Acc) : Prop :=
  st.cap = st.seq.length ∧ st.n ≤ st.cap

/-! ### The input format in the words of the specification -/

/-- A header line begins with the marker `>`. -/
def is_header (line : List Nat) : Bool :=
  line.head? == some 62

/-- A line-ending byte: CR or LF. -/
def is_eol (c : Nat) : Bool :=
  c == 13 || c == 10

/-- The content of a line: the line without its trailing line-ending bytes. -/
def strip_ending : List Nat → List Nat
  | [] => []
  | c :: cs => if (c :: cs).all is_eol then [] else c :: strip_ending cs

/-- The nucleotide data of a record: the contents, in order, of the lines that follow its
header up to the next header line or the end of input. -/
def seq_of : List (List Nat) → List Nat
  | [] => []
  | l :: rest => if is_header l then [] else strip_ending l ++ seq_of rest

/-- The records of a source in input order: one pair (header, sequence) per header line. -/
def all_records : List (List Nat) → List (List Nat × List Nat)
  | [] => []
  | l :: rest => if is_header l then (l, seq_of rest) :: all_records rest else all_records rest

/-- The records handed to the matching pipeline: all records, except a final record whose
sequence is empty. -/
def handed_spec (lines : List (List Nat)) : List (List Nat × List Nat) :=
  match (all_records lines).getLast? with
  | some (_, []) => (all_records lines).dropLast
  | _ => all_records lines

/-- A line without NUL whose only CR and LF bytes are its trailing line ending. -/
def well_formed (line : List Nat) : Bool :=
  line.all (fun c => c != 0) && (strip_ending line).all (fun c => !is_eol c)

/-! ### The comparator in the words of the specification -/

/-- Two symbols match when their masks share a base: `IUPAC[a] & IUPAC[b] != 0`. -/
def iupac_match (a b : Nat) : Bool :=
  (IUPAC a &&& IUPAC b) != 0

/-- The upper-case nucleotide symbols: A, C, G, T, U and the ambiguity codes. -/
def upper_symbols : List Nat :=
  bytes "ACGTURYSWKMBDHVN"

/-- The valid nucleotide symbols: the 16 letters in upper and in lower case. -/
def valid_symbols : List Nat :=
  bytes "ACGTURYSWKMBDHVNacgturyswkmbdhvn"

/-- The C `tolower` on bytes ("C" locale). -/
def tolower (c : Nat) : Nat :=
  if 65 ≤ c ∧ c ≤ 90 then c + 32 else c

/-- The C `toupper` on bytes ("C" locale). -/
def toupper (c : Nat) : Nat :=
  if 97 ≤ c ∧ c ≤ 122 then c - 32 else c

/-! ### The gap loop without the stop at zero mismatches -/

/-- The variant of the gap loop that, after recording a candidate with mismatch count 0,
goes on through the remaining gaps instead of leaving the loop. -/
def search_loop_nostop (seq : List Nat) (n : Nat) (right : List Nat) (mL mR : Nat)
    (err_right : Int) (gap_max i : Nat) : Nat → Nat → Best → Best
  | 0, _, st => st
  | fuel + 1, gap, st =>
    if gap ≤ gap_max then
      let j := i + mL + gap
      let e := right_end i mL mR gap
      if ge_size e n then st
      else
        let mismR : Int := (hamming_iupac right (seq.drop j) mR : Nat)
        let log := st.calls ++ [gap]
        if mismR ≤ err_right ∧ mismR < st.best_mismR then
          search_loop_nostop seq n right mL mR err_right gap_max i fuel (gap + 1)
            { best_end := e, best_mismR := mismR, calls := log }
        else
          search_loop_nostop seq n right mL mR err_right gap_max i fuel (gap + 1)
            { st with calls := log }
    else st

/-- The per-hit search with the gap loop that does not stop at zero mismatches. -/
def search_right_nostop (seq : List Nat) (n : Nat) (right : List Nat) (mL mR : Nat)
    (err_right : Int) (gap_min gap_max i : Nat) : Best :=
  search_loop_nostop seq n right mL mR err_right gap_max i (gap_max + 1 - gap_min) gap_min
    { best_end := -1, best_mismR := 999, calls := [] }

/-! ### Sources processed alone -/

/-- The rows that a source produces when it is the only input source. -/
def source_rows (op : Opts) (src : Option (List (List Nat))) : List Row :=
  match main op true [src] with
  | some o => o.rows
  | none => []

/-- The part of `scan_left` that doubles the block when it is full, before the store. -/
def hit_grow (b : HitBuf) : HitBuf :=
  if b.cnt ≥ b.capacity then
    { b with capacity := b.capacity * 2, pos := realloc b.pos (b.capacity * 2) }
  else b

/-! ## Lemmas and theorems -/

/-! ### Lists as memory blocks -/

theorem take_set_succ {α : Type} (l : List α) (k : Nat) (a : α) (h : k < l.length) :
    (l.set k a).take (k + 1) = l.take k ++ [a] := by
  induction l generalizing k with
  | nil => simp at h
  | cons x xs ih =>
    cases k with
    | zero => simp
    | succ k => simp at h; simp [ih k h]

theorem map_getD_range (l : List Nat) (k : Nat) (h : k ≤ l.length) :
    (List.range k).map (fun p => l.getD p 0) = l.take k := by
  induction k with
  | zero => simp
  | succ k ih =>
    have hk : k < l.length := h
    rw [List.range_succ, List.map_append, ih (Nat.le_of_lt hk), List.take_succ]
    simp [List.getD, List.getElem?_eq_getElem hk]

theorem realloc_length (block : List Nat) (size : Nat) : (realloc block size).length = size := by
  simp [realloc]; omega

theorem realloc_take (block : List Nat) (size k : Nat) (h1 : k ≤ block.length) (h2 : k ≤ size) :
    (realloc block size).take k = block.take k := by
  unfold realloc
  rw [List.take_append_of_le_length (by simp; omega), List.take_take]
  simp [Nat.min_eq_left h2]

/-! ### The left-anchor scan -/

theorem scan_left_step_inv (seq left : List Nat) (mL : Nat) (err : Int) (b : HitBuf)
    (s : List Nat) (i : Nat) (h : ScanInv b s) :
    ScanInv (scan_left_step seq left mL err b i)
      (s ++ [i].filter (fun i => decide ((hamming_iupac left (seq.drop i) mL : Int) ≤ err))) := by
  obtain ⟨h1, h2, h3, h4⟩ := h
  unfold scan_left_step
  by_cases hP : (hamming_iupac left (seq.drop i) mL : Int) ≤ err
  · simp only [hP, if_true, List.filter_cons, decide_True, List.filter_nil]
    by_cases hc : b.cnt ≥ b.capacity
    · simp only [hc, if_true]
      refine ⟨?_, ?_, ?_, ?_⟩
      · simp [realloc_length]
      · simp; omega
      · simp; omega
      · simp only
        rw [take_set_succ _ _ _ (by rw [realloc_length]; omega),
          realloc_take _ _ _ (by omega) (by omega), h4]
    · simp only [hc, if_false]
      refine ⟨?_, ?_, ?_, ?_⟩
      · simp [h1]
      · simp; omega
      · simp; omega
      · simp only
        rw [take_set_succ _ _ _ (by omega), h4]
  · simp [hP]
    exact ⟨h1, h2, h3, h4⟩

theorem scan_left_fold_inv (seq left : List Nat) (mL : Nat) (err : Int) (l : List Nat)
    (b : HitBuf) (s : List Nat) (h : ScanInv b s) :
    ScanInv (l.foldl (scan_left_step seq left mL err) b)
      (s ++ l.filter (fun i => decide ((hamming_iupac left (seq.drop i) mL : Int) ≤ err))) := by
  induction l generalizing b s with
  | nil => simpa using h
  | cons x xs ih =>
    have := ih _ _ (scan_left_step_inv seq left mL err b s x h)
    simp only [List.foldl_cons]
    rw [List.append_assoc, ← List.filter_append] at this
    simpa using this

theorem scan_left_inv (seq : List Nat) (n : Nat) (left : List Nat) (mL : Nat) (err : Int) :
    ScanInv (scan_left seq n left mL err)
      ((List.range (n + 1 - mL)).filter
        (fun i => decide ((hamming_iupac left (seq.drop i) mL : Int) ≤ err))) := by
  have h0 : ScanInv { pos := List.replicate 128 0, cnt := 0, capacity := 128 } [] := by
    simp [ScanInv]
  have h := scan_left_fold_inv seq left mL err
    (List.range (Int.toNat ((n : Int) - (mL : Int) + 1))) _ _ h0
  have e : Int.toNat ((n : Int) - (mL : Int) + 1) = n + 1 - mL := by omega
  unfold scan_left
  rw [e] at h ⊢
  rw [List.nil_append] at h
  exact h

theorem scan_left_hits (seq : List Nat) (n : Nat) (left : List Nat) (mL : Nat) (err : Int) :
    (scan_left seq n left mL err).hits =
      (List.range (n + 1 - mL)).filter
        (fun i => decide ((hamming_iupac left (seq.drop i) mL : Int) ≤ err)) := by
  obtain ⟨h1, h2, _, h4⟩ := scan_left_inv seq n left mL err
  unfold HitBuf.hits
  rw [map_getD_range _ _ (by omega), h4]

/-- C1. Left-anchor scan completeness: the hits `(*pos)[0 .. *cnt)` left by `scan_left` are
the brute-force list of the offsets `0 .. n - mL` whose window has at most `err` mismatches,
in scan order, whatever the number of doublings of the block of initial capacity 128; the
list is strictly ascending, without duplicates, its members are exactly the `i` with
`i + mL ≤ n` and `hamming_iupac(left, seq + i, mL) ≤ err`, and it is empty when `n < mL`. -/
theorem scan_left_complete (seq : List Nat) (n : Nat) (left : List Nat) (mL : Nat) (err : Int) :
    (scan_left seq n left mL err).hits =
        (List.range (n + 1 - mL)).filter
          (fun i => decide ((hamming_iupac left (seq.drop i) mL : Int) ≤ err)) ∧
      (scan_left seq n left mL err).hits.Pairwise (fun a b => a < b) ∧
      (scan_left seq n left mL err).hits.Nodup ∧
      (∀ i, i ∈ (scan_left seq n left mL err).hits ↔
        i + mL ≤ n ∧ (hamming_iupac left (seq.drop i) mL : Int) ≤ err) ∧
      (n < mL → (scan_left seq n left mL err).hits = []) := by
  have hp : (scan_left seq n left mL err).hits.Pairwise (fun a b => a < b) := by
    rw [scan_left_hits]
    exact List.Pairwise.filter _ (List.pairwise_lt_range _)
  refine ⟨scan_left_hits seq n left mL err, hp, ?_, ?_, ?_⟩
  · exact hp.imp (fun h => Nat.ne_of_lt h)
  · intro i
    rw [scan_left_hits]
    simp only [List.mem_filter, List.mem_range, decide_eq_true_eq]
    constructor
    · rintro ⟨h1, h2⟩; exact ⟨by omega, h2⟩
    · rintro ⟨h1, h2⟩; exact ⟨by omega, h2⟩
  · intro h
    rw [scan_left_hits]
    have : n + 1 - mL = 0 := by omega
    simp [this]

/-! ### The right-anchor search -/

theorem ge_size_iff (x : Int) (n : Nat) : ge_size x n = true ↔ x < 0 ∨ (n : Int) ≤ x := by
  simp [ge_size]

theorem ge_size_false_iff (x : Int) (n : Nat) :
    ge_size x n = false ↔ 0 ≤ x ∧ x < (n : Int) := by
  rw [← Bool.not_eq_true, ge_size_iff]; omega

theorem right_end_succ (i mL mR g : Nat) :
    right_end i mL mR (g + 1) = right_end i mL mR g + 1 := by
  unfold right_end; omega

theorem right_end_mono (i mL mR : Nat) {g g' : Nat} (h : g ≤ g') :
    right_end i mL mR g ≤ right_end i mL mR g' := by
  unfold right_end; omega

theorem ham_nonneg (seq right : List Nat) (mL mR i g : Nat) : 0 ≤ ham seq right mL mR i g := by
  unfold ham; omega

theorem search_loop_done (seq : List Nat) (n : Nat) (right : List Nat) (mL mR : Nat)
    (err : Int) (gap_max i fuel gap : Nat) (st : Best) (hg : ¬ gap ≤ gap_max) :
    search_loop seq n right mL mR err gap_max i (fuel + 1) gap st = st := by
  simp [search_loop, hg]

theorem search_loop_oob (seq : List Nat) (n : Nat) (right : List Nat) (mL mR : Nat)
    (err : Int) (gap_max i fuel gap : Nat) (st : Best) (hg : gap ≤ gap_max)
    (hb : ge_size (right_end i mL mR gap) n = true) :
    search_loop seq n right mL mR err gap_max i (fuel + 1) gap st = st := by
  simp [search_loop, hg, hb]

theorem search_loop_zero_hit (seq : List Nat) (n : Nat) (right : List Nat) (mL mR : Nat)
    (err : Int) (gap_max i fuel gap : Nat) (st : Best) (hg : gap ≤ gap_max)
    (hb : ge_size (right_end i mL mR gap) n = false)
    (h1 : ham seq right mL mR i gap ≤ err) (h2 : ham seq right mL mR i gap < st.best_mismR)
    (hz : ham seq right mL mR i gap = 0) :
    search_loop seq n right mL mR err gap_max i (fuel + 1) gap st =
      { best_end := right_end i mL mR gap, best_mismR := ham seq right mL mR i gap,
        calls := st.calls ++ [gap] } := by
  unfold ham at h1 h2 hz ⊢
  rw [search_loop]
  simp only [hg, hb, if_true, Bool.false_eq_true, if_false]
  rw [if_pos ⟨h1, h2⟩, if_pos hz]

theorem search_loop_better (seq : List Nat) (n : Nat) (right : List Nat) (mL mR : Nat)
    (err : Int) (gap_max i fuel gap : Nat) (st : Best) (hg : gap ≤ gap_max)
    (hb : ge_size (right_end i mL mR gap) n = false)
    (h1 : ham seq right mL mR i gap ≤ err) (h2 : ham seq right mL mR i gap < st.best_mismR)
    (hz : ham seq right mL mR i gap ≠ 0) :
    search_loop seq n right mL mR err gap_max i (fuel + 1) gap st =
      search_loop seq n right mL mR err gap_max i fuel (gap + 1)
        { best_end := right_end i mL mR gap, best_mismR := ham seq right mL mR i gap,
          calls := st.calls ++ [gap] } := by
  unfold ham at h1 h2 hz ⊢
  rw [search_loop]
  simp only [hg, hb, if_true, Bool.false_eq_true, if_false]
  rw [if_pos ⟨h1, h2⟩, if_neg hz]

theorem search_loop_next (seq : List Nat) (n : Nat) (right : List Nat) (mL mR : Nat)
    (err : Int) (gap_max i fuel gap : Nat) (st : Best) (hg : gap ≤ gap_max)
    (hb : ge_size (right_end i mL mR gap) n = false)
    (hc : ¬ (ham seq right mL mR i gap ≤ err ∧ ham seq right mL mR i gap < st.best_mismR)) :
    search_loop seq n right mL mR err gap_max i (fuel + 1) gap st =
      search_loop seq n right mL mR err gap_max i fuel (gap + 1)
        { st with calls := st.calls ++ [gap] } := by
  unfold ham at hc
  rw [search_loop]
  simp only [hg, hb, if_true, Bool.false_eq_true, if_false]
  rw [if_neg hc]

/-- What the gap loop leaves, started at `gap` in state `st` with enough fuel: either the
best pair is untouched and no gap from `gap` on qualifies below `st.best_mismR`, or the best
pair is that of the first gap with the least qualifying mismatch count. -/
theorem search_loop_post (seq : List Nat) (n : Nat) (right : List Nat) (mL mR : Nat)
    (err : Int) (gap_max i : Nat) :
    ∀ (fuel gap : Nat) (st : Best), gap_max + 1 ≤ gap + fuel → 0 ≤ right_end i mL mR gap →
      ((search_loop seq n right mL mR err gap_max i fuel gap st).best_end = st.best_end ∧
        (search_loop seq n right mL mR err gap_max i fuel gap st).best_mismR = st.best_mismR ∧
        ∀ g, gap ≤ g → g ≤ gap_max → right_end i mL mR g < n →
          ham seq right mL mR i g ≤ err → st.best_mismR ≤ ham seq right mL mR i g) ∨
      (∃ g0, gap ≤ g0 ∧ g0 ≤ gap_max ∧ right_end i mL mR g0 < n ∧
        (search_loop seq n right mL mR err gap_max i fuel gap st).best_end
          = right_end i mL mR g0 ∧
        (search_loop seq n right mL mR err gap_max i fuel gap st).best_mismR
          = ham seq right mL mR i g0 ∧
        ham seq right mL mR i g0 ≤ err ∧ ham seq right mL mR i g0 < st.best_mismR ∧
        ∀ g, gap ≤ g → g ≤ gap_max → right_end i mL mR g < n →
          ham seq right mL mR i g ≤ err →
            ham seq right mL mR i g0 ≤ ham seq right mL mR i g ∧
            (ham seq right mL mR i g = ham seq right mL mR i g0 → g0 ≤ g)) := by
  intro fuel
  induction fuel with
  | zero =>
    intro gap st hf _
    left
    refine ⟨rfl, rfl, ?_⟩
    intro g h1 h2; omega
  | succ fuel ih =>
    intro gap st hf h0
    have h0' : 0 ≤ right_end i mL mR (gap + 1) := by rw [right_end_succ]; omega
    by_cases hg : gap ≤ gap_max
    · by_cases hb : ge_size (right_end i mL mR gap) n = true
      · rw [search_loop_oob _ _ _ _ _ _ _ _ _ _ _ hg hb]
        left
        refine ⟨rfl, rfl, ?_⟩
        intro g h1 _ h3
        have := right_end_mono i mL mR h1
        rw [ge_size_iff] at hb
        omega
      · rw [Bool.not_eq_true] at hb
        have hb' := (ge_size_false_iff _ _).1 hb
        by_cases hc : ham seq right mL mR i gap ≤ err ∧ ham seq right mL mR i gap < st.best_mismR
        · by_cases hz : ham seq right mL mR i gap = 0
          · rw [search_loop_zero_hit _ _ _ _ _ _ _ _ _ _ _ hg hb hc.1 hc.2 hz]
            right
            refine ⟨gap, le_refl _, hg, hb'.2, rfl, rfl, hc.1, hc.2, ?_⟩
            intro g h1 _ _ _
            have := ham_nonneg seq right mL mR i g
            exact ⟨by omega, fun _ => h1⟩
          · rw [search_loop_better _ _ _ _ _ _ _ _ _ _ _ hg hb hc.1 hc.2 hz]
            rcases ih (gap + 1)
              { best_end := right_end i mL mR gap, best_mismR := ham seq right mL mR i gap,
                calls := st.calls ++ [gap] } (by omega) h0'
              with ⟨e1, e2, e3⟩ | ⟨g0, a1, a2, a3, a4, a5, a6, a7, a8⟩
            · right
              refine ⟨gap, le_refl _, hg, hb'.2, e1, e2, hc.1, hc.2, ?_⟩
              intro g h1 h2 h3 h4
              rcases Nat.eq_or_lt_of_le h1 with rfl | hlt
              · exact ⟨le_refl _, fun _ => le_refl _⟩
              · exact ⟨e3 g hlt h2 h3 h4, fun _ => h1⟩
            · right
              simp only at a7
              refine ⟨g0, by omega, a2, a3, a4, a5, a6, by omega, ?_⟩
              intro g h1 h2 h3 h4
              rcases Nat.eq_or_lt_of_le h1 with rfl | hlt
              · exact ⟨by omega, fun h => by omega⟩
              · exact a8 g hlt h2 h3 h4
        · rw [search_loop_next _ _ _ _ _ _ _ _ _ _ _ hg hb hc]
          rcases ih (gap + 1) { st with calls := st.calls ++ [gap] } (by omega) h0'
            with ⟨e1, e2, e3⟩ | ⟨g0, a1, a2, a3, a4, a5, a6, a7, a8⟩
          · left
            refine ⟨e1, e2, ?_⟩
            intro g h1 h2 h3 h4
            rcases Nat.eq_or_lt_of_le h1 with rfl | hlt
            · by_contra hlt2
              exact hc ⟨h4, by omega⟩
            · exact e3 g hlt h2 h3 h4
          · right
            simp only at a7
            refine ⟨g0, by omega, a2, a3, a4, a5, a6, a7, ?_⟩
            intro g h1 h2 h3 h4
            rcases Nat.eq_or_lt_of_le h1 with rfl | hlt
            · have : st.best_mismR ≤ ham seq right mL mR i gap := by
                by_contra hlt2
                exact hc ⟨h4, by omega⟩
              exact ⟨by omega, fun h => by omega⟩
            · exact a8 g hlt h2 h3 h4
    · rw [search_loop_done _ _ _ _ _ _ _ _ _ _ _ hg]
      left
      refine ⟨rfl, rfl, ?_⟩
      intro g h1 h2; omega

/-! ### The comparator -/

theorem hamming_iupac_succ (p t : List Nat) (m : Nat) :
    hamming_iupac p t (m + 1) = hamming_iupac p t m + (if mismatchAt p t m then 1 else 0) := by
  unfold hamming_iupac
  rw [List.range_succ, List.foldl_append]
  by_cases h : mismatchAt p t m = true <;> simp [h]

theorem hamming_iupac_le (p t : List Nat) (m : Nat) : hamming_iupac p t m ≤ m := by
  induction m with
  | zero => simp [hamming_iupac]
  | succ m ih =>
    rw [hamming_iupac_succ]
    split <;> omega

theorem hamming_iupac_all_mismatch (p t : List Nat) (m : Nat)
    (h : ∀ k, k < m → mismatchAt p t k = true) : hamming_iupac p t m = m := by
  induction m with
  | zero => simp [hamming_iupac]
  | succ m ih =>
    rw [hamming_iupac_succ, ih (fun k hk => h k (Nat.lt_succ_of_lt hk)), h m (Nat.lt_succ_self m)]
    simp

theorem ham_le (seq right : List Nat) (mL mR i g : Nat) : ham seq right mL mR i g ≤ mR := by
  unfold ham
  exact_mod_cast hamming_iupac_le _ _ _

/-! ### Results of the right-anchor search -/

theorem search_right_neg (seq : List Nat) (n : Nat) (right : List Nat) (mL mR : Nat)
    (err : Int) (gap_min gap_max i : Nat) (h : right_end i mL mR gap_min < 0) :
    search_right seq n right mL mR err gap_min gap_max i =
      { best_end := -1, best_mismR := 999, calls := [] } := by
  unfold search_right
  by_cases hg : gap_min ≤ gap_max
  · have e : gap_max + 1 - gap_min = (gap_max - gap_min) + 1 := by omega
    rw [e, search_loop_oob _ _ _ _ _ _ _ _ _ _ _ hg ((ge_size_iff _ _).2 (Or.inl h))]
  · have e : gap_max + 1 - gap_min = 0 := by omega
    rw [e]; rfl

/-- The per-hit search returns a match exactly when some gap of the window, in bounds and
within `err_right`, has fewer than 999 mismatches. -/
theorem search_right_found_iff (seq : List Nat) (n : Nat) (right : List Nat) (mL mR : Nat)
    (err : Int) (gap_min gap_max i : Nat) (h0 : 0 ≤ right_end i mL mR gap_min) :
    (search_right seq n right mL mR err gap_min gap_max i).best_end ≠ -1 ↔
      ∃ g, gap_min ≤ g ∧ g ≤ gap_max ∧ right_end i mL mR g < n ∧
        ham seq right mL mR i g ≤ err ∧ ham seq right mL mR i g < 999 := by
  rcases search_loop_post seq n right mL mR err gap_max i (gap_max + 1 - gap_min) gap_min
      { best_end := -1, best_mismR := 999, calls := [] } (by omega) h0
    with ⟨e1, _, e3⟩ | ⟨g0, a1, a2, a3, a4, _, a6, a7, _⟩
  · constructor
    · intro h; exact absurd e1 h
    · rintro ⟨g, h1, h2, h3, h4, h5⟩
      have := e3 g h1 h2 h3 h4
      simp only at this
      omega
  · constructor
    · intro _; exact ⟨g0, a1, a2, a3, a6, a7⟩
    · intro _
      unfold search_right
      rw [a4]
      have := right_end_mono i mL mR a1
      omega

/-- C3. Right-anchor best-match selection: when the per-hit search returns a match, there is
a gap `g` of the window, in bounds and within `err_right`, such that `best_mismR` is the
mismatch count at `g`, `best_end` is the right-anchor end at `g`, no gap of the window that
is in bounds and within `err_right` has a smaller mismatch count, and every such gap with
the same count is at least `g`. -/
theorem search_right_best (seq : List Nat) (n : Nat) (right : List Nat) (mL mR : Nat)
    (err : Int) (gap_min gap_max i : Nat)
    (hm : (search_right seq n right mL mR err gap_min gap_max i).best_end ≠ -1) :
    ∃ g, gap_min ≤ g ∧ g ≤ gap_max ∧ right_end i mL mR g < n ∧
      ham seq right mL mR i g ≤ err ∧
      (search_right seq n right mL mR err gap_min gap_max i).best_mismR
        = ham seq right mL mR i g ∧
      (search_right seq n right mL mR err gap_min gap_max i).best_end
        = right_end i mL mR g ∧
      (∀ g', gap_min ≤ g' → g' ≤ gap_max → right_end i mL mR g' < n →
        ham seq right mL mR i g' ≤ err → ham seq right mL mR i g ≤ ham seq right mL mR i g') ∧
      (∀ g', gap_min ≤ g' → g' ≤ gap_max → right_end i mL mR g' < n →
        ham seq right mL mR i g' ≤ err →
        ham seq right mL mR i g' = ham seq right mL mR i g → g ≤ g') := by
  by_cases h0 : 0 ≤ right_end i mL mR gap_min
  · rcases search_loop_post seq n right mL mR err gap_max i (gap_max + 1 - gap_min) gap_min
        { best_end := -1, best_mismR := 999, calls := [] } (by omega) h0
      with ⟨e1, _, _⟩ | ⟨g0, a1, a2, a3, a4, a5, a6, _, a8⟩
    · exact absurd e1 hm
    · exact ⟨g0, a1, a2, a3, a6, a5, a4,
        fun g' h1 h2 h3 h4 => (a8 g' h1 h2 h3 h4).1,
        fun g' h1 h2 h3 h4 h5 => (a8 g' h1 h2 h3 h4).2 h5⟩
  · rw [search_right_neg _ _ _ _ _ _ _ _ _ (by omega)] at hm
    exact absurd rfl hm

/-- Witness of C3: the hit 4 of `ACGTACGTTTACGT` with right anchor `ACGT`, gaps 0 to 3. -/
theorem search_right_best_witness :
    (search_right (bytes "ACGTACGTTTACGT") 14 (bytes "ACGT") 4 4 0 0 3 4).best_end ≠ -1 ∧
    ∃ g, 0 ≤ g ∧ g ≤ 3 ∧ right_end 4 4 4 g < (14 : Nat) ∧
      ham (bytes "ACGTACGTTTACGT") (bytes "ACGT") 4 4 4 g ≤ 0 ∧
      (search_right (bytes "ACGTACGTTTACGT") 14 (bytes "ACGT") 4 4 0 0 3 4).best_mismR
        = ham (bytes "ACGTACGTTTACGT") (bytes "ACGT") 4 4 4 g ∧
      (search_right (bytes "ACGTACGTTTACGT") 14 (bytes "ACGT") 4 4 0 0 3 4).best_end
        = right_end 4 4 4 g ∧
      (∀ g', 0 ≤ g' → g' ≤ 3 → right_end 4 4 4 g' < (14 : Nat) →
        ham (bytes "ACGTACGTTTACGT") (bytes "ACGT") 4 4 4 g' ≤ 0 →
        ham (bytes "ACGTACGTTTACGT") (bytes "ACGT") 4 4 4 g
          ≤ ham (bytes "ACGTACGTTTACGT") (bytes "ACGT") 4 4 4 g') ∧
      (∀ g', 0 ≤ g' → g' ≤ 3 → right_end 4 4 4 g' < (14 : Nat) →
        ham (bytes "ACGTACGTTTACGT") (bytes "ACGT") 4 4 4 g' ≤ 0 →
        ham (bytes "ACGTACGTTTACGT") (bytes "ACGT") 4 4 4 g'
          = ham (bytes "ACGTACGTTTACGT") (bytes "ACGT") 4 4 4 g → g ≤ g') :=
  ⟨by decide,
    search_right_best (bytes "ACGTACGTTTACGT") 14 (bytes "ACGT") 4 4 0 0 3 4 (by decide)⟩

/-! ### The skipping variant of the gap loop -/

theorem search_loop_skip_done (seq : List Nat) (n : Nat) (right : List Nat) (mL mR : Nat)
    (err : Int) (gap_max i fuel gap : Nat) (st : Best) (hg : ¬ gap ≤ gap_max) :
    search_loop_skip seq n right mL mR err gap_max i (fuel + 1) gap st = st := by
  simp [search_loop_skip, hg]

theorem search_loop_skip_oob (seq : List Nat) (n : Nat) (right : List Nat) (mL mR : Nat)
    (err : Int) (gap_max i fuel gap : Nat) (st : Best) (hg : gap ≤ gap_max)
    (hb : ge_size (right_end i mL mR gap) n = true) :
    search_loop_skip seq n right mL mR err gap_max i (fuel + 1) gap st =
      search_loop_skip seq n right mL mR err gap_max i fuel (gap + 1) st := by
  rw [search_loop_skip]
  simp only [hg, hb, if_true]

theorem search_loop_skip_zero_hit (seq : List Nat) (n : Nat) (right : List Nat) (mL mR : Nat)
    (err : Int) (gap_max i fuel gap : Nat) (st : Best) (hg : gap ≤ gap_max)
    (hb : ge_size (right_end i mL mR gap) n = false)
    (h1 : ham seq right mL mR i gap ≤ err) (h2 : ham seq right mL mR i gap < st.best_mismR)
    (hz : ham seq right mL mR i gap = 0) :
    search_loop_skip seq n right mL mR err gap_max i (fuel + 1) gap st =
      { best_end := right_end i mL mR gap, best_mismR := ham seq right mL mR i gap,
        calls := st.calls ++ [gap] } := by
  unfold ham at h1 h2 hz ⊢
  rw [search_loop_skip]
  simp only [hg, hb, if_true, Bool.false_eq_true, if_false]
  rw [if_pos ⟨h1, h2⟩, if_pos hz]

theorem search_loop_skip_better (seq : List Nat) (n : Nat) (right : List Nat) (mL mR : Nat)
    (err : Int) (gap_max i fuel gap : Nat) (st : Best) (hg : gap ≤ gap_max)
    (hb : ge_size (right_end i mL mR gap) n = false)
    (h1 : ham seq right mL mR i gap ≤ err) (h2 : ham seq right mL mR i gap < st.best_mismR)
    (hz : ham seq right mL mR i gap ≠ 0) :
    search_loop_skip seq n right mL mR err gap_max i (fuel + 1) gap st =
      search_loop_skip seq n right mL mR err gap_max i fuel (gap + 1)
        { best_end := right_end i mL mR gap, best_mismR := ham seq right mL mR i gap,
          calls := st.calls ++ [gap] } := by
  unfold ham at h1 h2 hz ⊢
  rw [search_loop_skip]
  simp only [hg, hb, if_true, Bool.false_eq_true, if_false]
  rw [if_pos ⟨h1, h2⟩, if_neg hz]

theorem search_loop_skip_next (seq : List Nat) (n : Nat) (right : List Nat) (mL mR : Nat)
    (err : Int) (gap_max i fuel gap : Nat) (st : Best) (hg : gap ≤ gap_max)
    (hb : ge_size (right_end i mL mR gap) n = false)
    (hc : ¬ (ham seq right mL mR i gap ≤ err ∧ ham seq right mL mR i gap < st.best_mismR)) :
    search_loop_skip seq n right mL mR err gap_max i (fuel + 1) gap st =
      search_loop_skip seq n right mL mR err gap_max i fuel (gap + 1)
        { st with calls := st.calls ++ [gap] } := by
  unfold ham at hc
  rw [search_loop_skip]
  simp only [hg, hb, if_true, Bool.false_eq_true, if_false]
  rw [if_neg hc]

/-- Once the right-anchor end has reached `n`, the skipping loop changes nothing. -/
theorem search_loop_skip_past (seq : List Nat) (n : Nat) (right : List Nat) (mL mR : Nat)
    (err : Int) (gap_max i : Nat) :
    ∀ (fuel gap : Nat) (st : Best), (n : Int) ≤ right_end i mL mR gap →
      search_loop_skip seq n right mL mR err gap_max i fuel gap st = st := by
  intro fuel
  induction fuel with
  | zero => intro gap st _; rfl
  | succ fuel ih =>
    intro gap st h
    by_cases hg : gap ≤ gap_max
    · rw [search_loop_skip_oob _ _ _ _ _ _ _ _ _ _ _ hg ((ge_size_iff _ _).2 (Or.inr h))]
      exact ih (gap + 1) st (by rw [right_end_succ]; omega)
    · exact search_loop_skip_done _ _ _ _ _ _ _ _ _ _ _ hg

theorem search_loop_eq_skip (seq : List Nat) (n : Nat) (right : List Nat) (mL mR : Nat)
    (err : Int) (gap_max i : Nat) :
    ∀ (fuel gap : Nat) (st : Best), 0 ≤ right_end i mL mR gap →
      search_loop seq n right mL mR err gap_max i fuel gap st =
        search_loop_skip seq n right mL mR err gap_max i fuel gap st := by
  intro fuel
  induction fuel with
  | zero => intro gap st _; rfl
  | succ fuel ih =>
    intro gap st h0
    have h0' : 0 ≤ right_end i mL mR (gap + 1) := by rw [right_end_succ]; omega
    by_cases hg : gap ≤ gap_max
    · by_cases hb : ge_size (right_end i mL mR gap) n = true
      · rw [search_loop_oob _ _ _ _ _ _ _ _ _ _ _ hg hb,
          search_loop_skip_oob _ _ _ _ _ _ _ _ _ _ _ hg hb]
        rw [ge_size_iff] at hb
        exact (search_loop_skip_past _ _ _ _ _ _ _ _ _ _ _
          (by rw [right_end_succ]; omega)).symm
      · rw [Bool.not_eq_true] at hb
        by_cases hc : ham seq right mL mR i gap ≤ err ∧ ham seq right mL mR i gap < st.best_mismR
        · by_cases hz : ham seq right mL mR i gap = 0
          · rw [search_loop_zero_hit _ _ _ _ _ _ _ _ _ _ _ hg hb hc.1 hc.2 hz,
              search_loop_skip_zero_hit _ _ _ _ _ _ _ _ _ _ _ hg hb hc.1 hc.2 hz]
          · rw [search_loop_better _ _ _ _ _ _ _ _ _ _ _ hg hb hc.1 hc.2 hz,
              search_loop_skip_better _ _ _ _ _ _ _ _ _ _ _ hg hb hc.1 hc.2 hz]
            exact ih _ _ h0'
        · rw [search_loop_next _ _ _ _ _ _ _ _ _ _ _ hg hb hc,
            search_loop_skip_next _ _ _ _ _ _ _ _ _ _ _ hg hb hc]
          exact ih _ _ h0'
    · rw [search_loop_done _ _ _ _ _ _ _ _ _ _ _ hg,
        search_loop_skip_done _ _ _ _ _ _ _ _ _ _ _ hg]

/-- Every gap that the loop adds to the log of comparator calls is in bounds. -/
theorem search_loop_calls (seq : List Nat) (n : Nat) (right : List Nat) (mL mR : Nat)
    (err : Int) (gap_max i : Nat) :
    ∀ (fuel gap : Nat) (st : Best) (g : Nat),
      g ∈ (search_loop seq n right mL mR err gap_max i fuel gap st).calls →
        g ∈ st.calls ∨ (gap ≤ g ∧ g ≤ gap_max ∧ ge_size (right_end i mL mR g) n = false) := by
  intro fuel
  induction fuel with
  | zero => intro gap st g h; exact Or.inl h
  | succ fuel ih =>
    intro gap st g h
    by_cases hg : gap ≤ gap_max
    · by_cases hb : ge_size (right_end i mL mR gap) n = true
      · rw [search_loop_oob _ _ _ _ _ _ _ _ _ _ _ hg hb] at h
        exact Or.inl h
      · rw [Bool.not_eq_true] at hb
        by_cases hc : ham seq right mL mR i gap ≤ err ∧ ham seq right mL mR i gap < st.best_mismR
        · by_cases hz : ham seq right mL mR i gap = 0
          · rw [search_loop_zero_hit _ _ _ _ _ _ _ _ _ _ _ hg hb hc.1 hc.2 hz] at h
            simp only [List.mem_append, List.mem_singleton] at h
            rcases h with h | rfl
            · exact Or.inl h
            · exact Or.inr ⟨le_refl _, hg, hb⟩
          · rw [search_loop_better _ _ _ _ _ _ _ _ _ _ _ hg hb hc.1 hc.2 hz] at h
            rcases ih _ _ _ h with h | ⟨h1, h2, h3⟩
            · simp only [List.mem_append, List.mem_singleton] at h
              rcases h with h | rfl
              · exact Or.inl h
              · exact Or.inr ⟨le_refl _, hg, hb⟩
            · exact Or.inr ⟨by omega, h2, h3⟩
        · rw [search_loop_next _ _ _ _ _ _ _ _ _ _ _ hg hb hc] at h
          rcases ih _ _ _ h with h | ⟨h1, h2, h3⟩
          · simp only [List.mem_append, List.mem_singleton] at h
            rcases h with h | rfl
            · exact Or.inl h
            · exact Or.inr ⟨le_refl _, hg, hb⟩
          · exact Or.inr ⟨by omega, h2, h3⟩
    · rw [search_loop_done _ _ _ _ _ _ _ _ _ _ _ hg] at h
      exact Or.inl h

/-- C4. Out-of-bounds early termination is result-preserving: for a right anchor of length
at least 1, the per-hit search that leaves the gap loop at the first gap whose right-anchor
end is `≥ n` returns the same `best_end` and `best_mismR` (and makes the same comparator
calls) as the variant that skips out-of-bounds gaps and goes on up to `gap_max`; and no
comparator call is made at a gap `g` at or beyond a gap `g0` whose end is `≥ n`. -/
theorem search_right_early_exit (seq : List Nat) (n : Nat) (right : List Nat) (mL mR : Nat)
    (err : Int) (gap_min gap_max i : Nat) (hmR : 1 ≤ mR) :
    (search_right seq n right mL mR err gap_min gap_max i).best_end =
        (search_right_skip seq n right mL mR err gap_min gap_max i).best_end ∧
      (search_right seq n right mL mR err gap_min gap_max i).best_mismR =
        (search_right_skip seq n right mL mR err gap_min gap_max i).best_mismR ∧
      search_right seq n right mL mR err gap_min gap_max i =
        search_right_skip seq n right mL mR err gap_min gap_max i ∧
      ∀ g0 g, (n : Int) ≤ right_end i mL mR g0 → g0 ≤ g →
        g ∉ (search_right seq n right mL mR err gap_min gap_max i).calls := by
  have h0 : 0 ≤ right_end i mL mR gap_min := by unfold right_end; omega
  have e : search_right seq n right mL mR err gap_min gap_max i =
      search_right_skip seq n right mL mR err gap_min gap_max i :=
    search_loop_eq_skip _ _ _ _ _ _ _ _ _ _ _ h0
  refine ⟨by rw [e], by rw [e], e, ?_⟩
  intro g0 g hg0 hle hmem
  rcases search_loop_calls _ _ _ _ _ _ _ _ _ _ _ _ hmem with h | ⟨_, _, h3⟩
  · simp at h
  · rw [ge_size_false_iff] at h3
    have := right_end_mono i mL mR hle
    omega

/-- Witness of C4: the hit 4 of `ACGTACGTTTACGT`, right anchor `GGGG`, gaps 0 to 5 and up to
4 mismatches: gaps 0, 1, 2 are compared and the loop is left at gap 3. -/
theorem search_right_early_exit_witness :
    1 ≤ 4 ∧
    (search_right (bytes "ACGTACGTTTACGT") 14 (bytes "GGGG") 4 4 4 0 5 4).best_end =
        (search_right_skip (bytes "ACGTACGTTTACGT") 14 (bytes "GGGG") 4 4 4 0 5 4).best_end ∧
      (search_right (bytes "ACGTACGTTTACGT") 14 (bytes "GGGG") 4 4 4 0 5 4).best_mismR =
        (search_right_skip (bytes "ACGTACGTTTACGT") 14 (bytes "GGGG") 4 4 4 0 5 4).best_mismR ∧
      search_right (bytes "ACGTACGTTTACGT") 14 (bytes "GGGG") 4 4 4 0 5 4 =
        search_right_skip (bytes "ACGTACGTTTACGT") 14 (bytes "GGGG") 4 4 4 0 5 4 ∧
      ∀ g0 g, ((14 : Nat) : Int) ≤ right_end 4 4 4 g0 → g0 ≤ g →
        g ∉ (search_right (bytes "ACGTACGTTTACGT") 14 (bytes "GGGG") 4 4 4 0 5 4).calls :=
  ⟨by decide,
    search_right_early_exit (bytes "ACGTACGTTTACGT") 14 (bytes "GGGG") 4 4 4 0 5 4 (by decide)⟩

/-! ### The sentinel 999 of the right-anchor search -/

theorem mismatchAt_replicate (a b m k : Nat) (hk : k < m) (hab : (IUPAC a &&& IUPAC b) = 0) :
    mismatchAt (List.replicate m a) (List.replicate m b) k = true := by
  simp [mismatchAt, List.getD, List.getElem?_replicate, hk, hab]

/-- C2 (failing input). Left anchor `ACGT`, right anchor of 999 `A`, record `ACGT` followed
by 999 `C`, `gap_min = gap_max = 0`, `err_left = 0`, `err_right = 999`: offset 0 is a left
hit, the right anchor at gap 0 ends in bounds at 1002 with 999 mismatches, which is within
`err_right`, and still the search for the hit 0 ends with `best_end = -1`, because 999 is
not below the initial `best_mismR = 999`. -/
theorem search_right_sentinel_miss :
    0 ∈ (scan_left (bytes "ACGT" ++ List.replicate 999 67) 1003 (bytes "ACGT") 4 0).hits ∧
    (∃ g, 0 ≤ g ∧ g ≤ 0 ∧ right_end 0 4 999 g < (1003 : Nat) ∧
      ham (bytes "ACGT" ++ List.replicate 999 67) (List.replicate 999 65) 4 999 0 g ≤ 999) ∧
    (search_right (bytes "ACGT" ++ List.replicate 999 67) 1003 (List.replicate 999 65)
      4 999 999 0 0 0).best_end = -1 := by
  have hb : bytes "ACGT" = [65, 67, 71, 84] := by decide
  have hh : ham (bytes "ACGT" ++ List.replicate 999 67) (List.replicate 999 65) 4 999 0 0
      = 999 := by
    unfold ham
    rw [hb]
    have hd : List.drop (0 + 4 + 0) ([65, 67, 71, 84] ++ List.replicate 999 67)
        = List.replicate 999 67 :=
      List.drop_left' rfl
    rw [hd, hamming_iupac_all_mismatch _ _ _
      (fun k hk => mismatchAt_replicate 65 67 999 k hk (by decide))]
    rfl
  refine ⟨?_, ⟨0, le_refl _, le_refl _, by unfold right_end; omega, by rw [hh]⟩, ?_⟩
  · rw [scan_left_hits, List.mem_filter]
    refine ⟨by simp, ?_⟩
    rw [hb]
    decide
  · unfold search_right
    rw [show 0 + 1 - 0 = 0 + 1 from rfl,
      search_loop_next _ _ _ _ _ _ _ _ _ _ _ (le_refl _)
        ((ge_size_false_iff _ _).2 (by unfold right_end; omega))
        (by rw [hh]; simp)]
    rfl

/-! ### Emission -/

/-- A returned match comes from a gap of the window whose right anchor lies in bounds. -/
theorem search_right_matched (seq : List Nat) (n : Nat) (right : List Nat) (mL mR : Nat)
    (err : Int) (gap_min gap_max i : Nat)
    (hm : (search_right seq n right mL mR err gap_min gap_max i).best_end ≠ -1) :
    ∃ g, gap_min ≤ g ∧ g ≤ gap_max ∧ 0 ≤ right_end i mL mR g ∧ right_end i mL mR g < n ∧
      (search_right seq n right mL mR err gap_min gap_max i).best_end = right_end i mL mR g ∧
      (search_right seq n right mL mR err gap_min gap_max i).best_mismR
        = ham seq right mL mR i g ∧
      ham seq right mL mR i g ≤ err := by
  by_cases h0 : 0 ≤ right_end i mL mR gap_min
  · rcases search_loop_post seq n right mL mR err gap_max i (gap_max + 1 - gap_min) gap_min
        { best_end := -1, best_mismR := 999, calls := [] } (by omega) h0
      with ⟨e1, _, _⟩ | ⟨g0, a1, a2, a3, a4, a5, a6, _, _⟩
    · exact absurd e1 hm
    · have := right_end_mono i mL mR a1
      exact ⟨g0, a1, a2, by omega, a3, a4, a5, a6⟩
  · rw [search_right_neg _ _ _ _ _ _ _ _ _ (by omega)] at hm
    exact absurd rfl hm

theorem hit_fold_eq (op : Opts) (mL mR : Nat) (header seq : List Nat) (n : Nat)
    (pos : List Nat) (l : List Nat) (out : List Row) :
    l.foldl (hit_step op mL mR header seq n pos) out =
      out ++ (l.map (fun p => pos.getD p 0)).filterMap (row_of_hit op mL mR header seq n) := by
  induction l generalizing out with
  | nil => simp
  | cons p ps ih =>
    rw [List.foldl_cons, ih, List.map_cons, List.filterMap_cons]
    unfold hit_step row_of_hit
    by_cases h : (search_right seq n op.right mL mR op.err_right op.gap_min op.gap_max
        (pos.getD p 0)).best_end ≠ -1
    · simp only [h, if_true, ne_eq, not_false_eq_true, List.append_assoc, List.singleton_append]
    · simp only [h, if_false, ne_eq, not_true_eq_false]

/-- The rows written for one record: one row per left hit with a right-anchor match, in
the order of the hits. -/
theorem process_rows_eq (op : Opts) (mL mR : Nat) (header seq : List Nat) (n : Nat)
    (out : List Row) :
    process_rows op mL mR header seq n out =
      out ++ (scan_left seq n op.left mL op.err_left).hits.filterMap
        (row_of_hit op mL mR header seq n) := by
  unfold process_rows
  rw [hit_fold_eq]
  rfl

theorem ext_end_eq (best_end : Int) (after n : Nat) (h0 : 0 ≤ best_end) :
    ext_end best_end after n = min (best_end + (after : Int)) ((n : Int) - 1) := by
  unfold ext_end
  by_cases h : ge_size (best_end + (after : Int)) n = true
  · rw [if_pos h]
    rw [ge_size_iff] at h
    omega
  · rw [if_neg h]
    rw [Bool.not_eq_true, ge_size_false_iff] at h
    omega

/-- C5. Emitted fields: for a left hit `i` of a record held in a block of at least `n`
bytes, with a successful right-anchor match `st`, the row built by `emit_row` is among the
rows written for the record; its start is `i + 1`, its mismatch is
`hamming_iupac(left, seq + i, mL) + best_mismR`, and its motif is the slice `seq[i .. e]`
inclusive, of length `e - i + 1`, where `e = min(best_end + after, n - 1)`. -/
theorem emit_row_fields (op : Opts) (mL mR : Nat) (header seq : List Nat) (n i : Nat)
    (out : List Row) (st : Best) (hn : n ≤ seq.length)
    (hi : i ∈ (scan_left seq n op.left mL op.err_left).hits)
    (hst : st = search_right seq n op.right mL mR op.err_right op.gap_min op.gap_max i)
    (hm : st.best_end ≠ -1) :
    emit_row op mL header seq n i st ∈ process_rows op mL mR header seq n out ∧
      (emit_row op mL header seq n i st).start = (i : Int) + 1 ∧
      (emit_row op mL header seq n i st).mismatch
        = (hamming_iupac op.left (seq.drop i) mL : Nat) + st.best_mismR ∧
      (emit_row op mL header seq n i st).motif
        = (seq.take ((min (st.best_end + (op.after : Int)) ((n : Int) - 1)).toNat + 1)).drop i ∧
      ((emit_row op mL header seq n i st).motif.length : Int)
        = min (st.best_end + (op.after : Int)) ((n : Int) - 1) - (i : Int) + 1 := by
  subst hst
  obtain ⟨g, _, _, g0, g1, g2, _, _⟩ :=
    search_right_matched seq n op.right mL mR op.err_right op.gap_min op.gap_max i hm
  have hge : (i : Int) - 1 ≤ right_end i mL mR g := by unfold right_end; omega
  have hx := ext_end_eq
    (search_right seq n op.right mL mR op.err_right op.gap_min op.gap_max i).best_end
    op.after n (by omega)
  refine ⟨?_, rfl, rfl, ?_, ?_⟩
  · rw [process_rows_eq, List.mem_append, List.mem_filterMap]
    right
    exact ⟨i, hi, by unfold row_of_hit; rw [if_pos hm]⟩
  · unfold emit_row fwrite
    simp only
    rw [hx, List.drop_take]
    congr 1
    omega
  · unfold emit_row fwrite
    simp only
    rw [hx, List.length_take, List.length_drop]
    omega

/-- Witness of C5: the hit 4 of `ACGTACGTTTACGT` with both anchors `ACGT`, gaps 0 to 3 and
`after = 2`. -/
theorem emit_row_fields_witness :
    (14 ≤ (bytes "ACGTACGTTTACGT").length ∧
      4 ∈ (scan_left (bytes "ACGTACGTTTACGT") 14 (bytes "ACGT") 4 0).hits ∧
      (search_right (bytes "ACGTACGTTTACGT") 14 (bytes "ACGT") 4 4 0 0 3 4).best_end ≠ -1) ∧
    (emit_row ⟨bytes "ACGT", bytes "ACGT", 0, 3, 0, 0, 2⟩ 4 (bytes ">s") (bytes "ACGTACGTTTACGT")
        14 4 (search_right (bytes "ACGTACGTTTACGT") 14 (bytes "ACGT") 4 4 0 0 3 4)
      ∈ process_rows ⟨bytes "ACGT", bytes "ACGT", 0, 3, 0, 0, 2⟩ 4 4 (bytes ">s")
        (bytes "ACGTACGTTTACGT") 14 [] ∧
      (emit_row ⟨bytes "ACGT", bytes "ACGT", 0, 3, 0, 0, 2⟩ 4 (bytes ">s")
        (bytes "ACGTACGTTTACGT") 14 4
        (search_right (bytes "ACGTACGTTTACGT") 14 (bytes "ACGT") 4 4 0 0 3 4)).start
        = ((4 : Nat) : Int) + 1 ∧
      (emit_row ⟨bytes "ACGT", bytes "ACGT", 0, 3, 0, 0, 2⟩ 4 (bytes ">s")
        (bytes "ACGTACGTTTACGT") 14 4
        (search_right (bytes "ACGTACGTTTACGT") 14 (bytes "ACGT") 4 4 0 0 3 4)).mismatch
        = (hamming_iupac (bytes "ACGT") ((bytes "ACGTACGTTTACGT").drop 4) 4 : Nat)
          + (search_right (bytes "ACGTACGTTTACGT") 14 (bytes "ACGT") 4 4 0 0 3 4).best_mismR ∧
      (emit_row ⟨bytes "ACGT", bytes "ACGT", 0, 3, 0, 0, 2⟩ 4 (bytes ">s")
        (bytes "ACGTACGTTTACGT") 14 4
        (search_right (bytes "ACGTACGTTTACGT") 14 (bytes "ACGT") 4 4 0 0 3 4)).motif
        = ((bytes "ACGTACGTTTACGT").take
            ((min ((search_right (bytes "ACGTACGTTTACGT") 14 (bytes "ACGT")
              4 4 0 0 3 4).best_end + ((2 : Nat) : Int)) (((14 : Nat) : Int) - 1)).toNat
              + 1)).drop 4 ∧
      ((emit_row ⟨bytes "ACGT", bytes "ACGT", 0, 3, 0, 0, 2⟩ 4 (bytes ">s")
        (bytes "ACGTACGTTTACGT") 14 4
        (search_right (bytes "ACGTACGTTTACGT") 14 (bytes "ACGT") 4 4 0 0 3 4)).motif.length
          : Int)
        = min ((search_right (bytes "ACGTACGTTTACGT") 14 (bytes "ACGT")
            4 4 0 0 3 4).best_end + ((2 : Nat) : Int)) (((14 : Nat) : Int) - 1)
          - ((4 : Nat) : Int) + 1) :=
  ⟨⟨by decide, by decide, by decide⟩,
    emit_row_fields ⟨bytes "ACGT", bytes "ACGT", 0, 3, 0, 0, 2⟩ 4 4 (bytes ">s")
      (bytes "ACGTACGTTTACGT") 14 4 []
      (search_right (bytes "ACGTACGTTTACGT") 14 (bytes "ACGT") 4 4 0 0 3 4)
      (by decide) (by decide) rfl (by decide)⟩

/-- C6. Reported end coordinate: for an emitted match `st` of the hit `i`, the `end` column
is the clipped extended end `min(best_end + after, n - 1)` plus `1 - after`; it equals the
1-based right-anchor end `best_end + 1` exactly when `best_end + after ≤ n - 1` (no
clipping); and when clipping occurs it is `n - after`, which is below `best_end + 1` by the
clipped amount `best_end + after - (n - 1)`. -/
theorem end_col_clipping (op : Opts) (mL mR : Nat) (header seq : List Nat) (n i : Nat)
    (st : Best)
    (hst : st = search_right seq n op.right mL mR op.err_right op.gap_min op.gap_max i)
    (hm : st.best_end ≠ -1) :
    (emit_row op mL header seq n i st).end_col
        = min (st.best_end + (op.after : Int)) ((n : Int) - 1) + 1 - (op.after : Int) ∧
      ((emit_row op mL header seq n i st).end_col = st.best_end + 1 ↔
        st.best_end + (op.after : Int) ≤ (n : Int) - 1) ∧
      ((n : Int) - 1 < st.best_end + (op.after : Int) →
        (emit_row op mL header seq n i st).end_col = (n : Int) - (op.after : Int) ∧
        (st.best_end + 1) - (emit_row op mL header seq n i st).end_col
          = st.best_end + (op.after : Int) - ((n : Int) - 1) ∧
        (emit_row op mL header seq n i st).end_col < st.best_end + 1) := by
  subst hst
  obtain ⟨g, _, _, g0, g1, g2, _, _⟩ :=
    search_right_matched seq n op.right mL mR op.err_right op.gap_min op.gap_max i hm
  have hx := ext_end_eq
    (search_right seq n op.right mL mR op.err_right op.gap_min op.gap_max i).best_end
    op.after n (by omega)
  have he : (emit_row op mL header seq n i
      (search_right seq n op.right mL mR op.err_right op.gap_min op.gap_max i)).end_col
      = min ((search_right seq n op.right mL mR op.err_right op.gap_min op.gap_max i).best_end
          + (op.after : Int)) ((n : Int) - 1) + 1 - (op.after : Int) := by
    unfold emit_row
    simp only
    rw [hx]
  rw [he]
  refine ⟨rfl, ?_, ?_⟩
  · constructor <;> intro h <;> omega
  · intro h
    refine ⟨?_, ?_, ?_⟩ <;> omega

/-- Witness of C6: the hit 4 of `ACGTACGTTTACGT` with both anchors `ACGT`, gaps 0 to 3 and
`after = 2`, where the extended end 15 is clipped to 13. -/
theorem end_col_clipping_witness :
    (search_right (bytes "ACGTACGTTTACGT") 14 (bytes "ACGT") 4 4 0 0 3 4).best_end ≠ -1 ∧
    ((emit_row ⟨bytes "ACGT", bytes "ACGT", 0, 3, 0, 0, 2⟩ 4 (bytes ">s")
        (bytes "ACGTACGTTTACGT") 14 4
        (search_right (bytes "ACGTACGTTTACGT") 14 (bytes "ACGT") 4 4 0 0 3 4)).end_col
        = min ((search_right (bytes "ACGTACGTTTACGT") 14 (bytes "ACGT") 4 4 0 0 3 4).best_end
            + ((2 : Nat) : Int)) (((14 : Nat) : Int) - 1) + 1 - ((2 : Nat) : Int) ∧
      ((emit_row ⟨bytes "ACGT", bytes "ACGT", 0, 3, 0, 0, 2⟩ 4 (bytes ">s")
        (bytes "ACGTACGTTTACGT") 14 4
        (search_right (bytes "ACGTACGTTTACGT") 14 (bytes "ACGT") 4 4 0 0 3 4)).end_col
          = (search_right (bytes "ACGTACGTTTACGT") 14 (bytes "ACGT") 4 4 0 0 3 4).best_end + 1 ↔
        (search_right (bytes "ACGTACGTTTACGT") 14 (bytes "ACGT") 4 4 0 0 3 4).best_end
          + ((2 : Nat) : Int) ≤ ((14 : Nat) : Int) - 1) ∧
      (((14 : Nat) : Int) - 1
          < (search_right (bytes "ACGTACGTTTACGT") 14 (bytes "ACGT") 4 4 0 0 3 4).best_end
            + ((2 : Nat) : Int) →
        (emit_row ⟨bytes "ACGT", bytes "ACGT", 0, 3, 0, 0, 2⟩ 4 (bytes ">s")
          (bytes "ACGTACGTTTACGT") 14 4
          (search_right (bytes "ACGTACGTTTACGT") 14 (bytes "ACGT") 4 4 0 0 3 4)).end_col
          = ((14 : Nat) : Int) - ((2 : Nat) : Int) ∧
        ((search_right (bytes "ACGTACGTTTACGT") 14 (bytes "ACGT") 4 4 0 0 3 4).best_end + 1)
          - (emit_row ⟨bytes "ACGT", bytes "ACGT", 0, 3, 0, 0, 2⟩ 4 (bytes ">s")
            (bytes "ACGTACGTTTACGT") 14 4
            (search_right (bytes "ACGTACGTTTACGT") 14 (bytes "ACGT") 4 4 0 0 3 4)).end_col
          = (search_right (bytes "ACGTACGTTTACGT") 14 (bytes "ACGT") 4 4 0 0 3 4).best_end
            + ((2 : Nat) : Int) - (((14 : Nat) : Int) - 1) ∧
        (emit_row ⟨bytes "ACGT", bytes "ACGT", 0, 3, 0, 0, 2⟩ 4 (bytes ">s")
          (bytes "ACGTACGTTTACGT") 14 4
          (search_right (bytes "ACGTACGTTTACGT") 14 (bytes "ACGT") 4 4 0 0 3 4)).end_col
          < (search_right (bytes "ACGTACGTTTACGT") 14 (bytes "ACGT") 4 4 0 0 3 4).best_end
            + 1)) :=
  ⟨by decide,
    end_col_clipping ⟨bytes "ACGT", bytes "ACGT", 0, 3, 0, 0, 2⟩ 4 4 (bytes ">s")
      (bytes "ACGTACGTTTACGT") 14 4
      (search_right (bytes "ACGTACGTTTACGT") 14 (bytes "ACGT") 4 4 0 0 3 4) rfl (by decide)⟩

/-- C7. Match invariants: every row written for a record of length `n` is the row of a left
hit `i` with `i + mL ≤ n` (that is `0 ≤ i ≤ n - mL`) and of a returned match whose
right-anchor end satisfies `0 ≤ best_end < n`; its total mismatch is between 0 and
`mL + mR`, and its clipped extended end is at most `n - 1`. -/
theorem match_invariants (op : Opts) (mL mR : Nat) (header seq : List Nat) (n : Nat)
    (r : Row) (hr : r ∈ process_rows op mL mR header seq n []) :
    ∃ i st, st = search_right seq n op.right mL mR op.err_right op.gap_min op.gap_max i ∧
      st.best_end ≠ -1 ∧ r = emit_row op mL header seq n i st ∧
      i ∈ (scan_left seq n op.left mL op.err_left).hits ∧
      i + mL ≤ n ∧ (0 : Int) ≤ (i : Int) ∧ (i : Int) ≤ (n : Int) - (mL : Int) ∧
      0 ≤ st.best_end ∧ st.best_end < (n : Int) ∧
      0 ≤ r.mismatch ∧ r.mismatch ≤ (mL : Int) + (mR : Int) ∧
      ext_end st.best_end op.after n ≤ (n : Int) - 1 := by
  rw [process_rows_eq, List.nil_append, List.mem_filterMap] at hr
  obtain ⟨i, hi, hrow⟩ := hr
  unfold row_of_hit at hrow
  by_cases hm : (search_right seq n op.right mL mR op.err_right op.gap_min op.gap_max
      i).best_end ≠ -1
  · rw [if_pos hm] at hrow
    have hre : r = emit_row op mL header seq n i
        (search_right seq n op.right mL mR op.err_right op.gap_min op.gap_max i) :=
      (Option.some.inj hrow).symm
    obtain ⟨g, _, _, g0, g1, g2, g3, _⟩ :=
      search_right_matched seq n op.right mL mR op.err_right op.gap_min op.gap_max i hm
    have hi' := hi
    rw [scan_left_hits, List.mem_filter, List.mem_range] at hi'
    have hx := ext_end_eq
      (search_right seq n op.right mL mR op.err_right op.gap_min op.gap_max i).best_end
      op.after n (by omega)
    have hl : ((hamming_iupac op.left (seq.drop i) mL : Nat) : Int) ≤ mL := by
      exact_mod_cast hamming_iupac_le _ _ _
    have hR := ham_le seq op.right mL mR i g
    have hR0 := ham_nonneg seq op.right mL mR i g
    have hmis : r.mismatch = (hamming_iupac op.left (seq.drop i) mL : Nat)
        + ham seq op.right mL mR i g := by
      rw [hre, ← g3]; rfl
    refine ⟨i, _, rfl, hm, hre, hi, by omega, by omega, by omega, by omega, by omega,
      by omega, by omega, by omega⟩
  · rw [if_neg hm] at hrow
    exact absurd hrow (by simp)

/-- Witness of C7: the second row of the record `ACGTACGTTTACGT` with both anchors `ACGT`,
gaps 0 to 3 and `after = 2`. -/
theorem match_invariants_witness :
    (⟨bytes "s", 5, 12, 0, bytes "ACGTTTACGT"⟩ : Row)
        ∈ process_rows ⟨bytes "ACGT", bytes "ACGT", 0, 3, 0, 0, 2⟩ 4 4 (bytes ">s")
          (bytes "ACGTACGTTTACGT") 14 [] ∧
    ∃ i st, st = search_right (bytes "ACGTACGTTTACGT") 14 (bytes "ACGT") 4 4 0 0 3 i ∧
      st.best_end ≠ -1 ∧
      (⟨bytes "s", 5, 12, 0, bytes "ACGTTTACGT"⟩ : Row)
        = emit_row ⟨bytes "ACGT", bytes "ACGT", 0, 3, 0, 0, 2⟩ 4 (bytes ">s")
          (bytes "ACGTACGTTTACGT") 14 i st ∧
      i ∈ (scan_left (bytes "ACGTACGTTTACGT") 14 (bytes "ACGT") 4 0).hits ∧
      i + 4 ≤ 14 ∧ (0 : Int) ≤ (i : Int) ∧ (i : Int) ≤ ((14 : Nat) : Int) - ((4 : Nat) : Int) ∧
      0 ≤ st.best_end ∧ st.best_end < ((14 : Nat) : Int) ∧
      0 ≤ (⟨bytes "s", 5, 12, 0, bytes "ACGTTTACGT"⟩ : Row).mismatch ∧
      (⟨bytes "s", 5, 12, 0, bytes "ACGTTTACGT"⟩ : Row).mismatch
        ≤ ((4 : Nat) : Int) + ((4 : Nat) : Int) ∧
      ext_end st.best_end 2 14 ≤ ((14 : Nat) : Int) - 1 :=
  ⟨by decide,
    match_invariants ⟨bytes "ACGT", bytes "ACGT", 0, 3, 0, 0, 2⟩ 4 4 (bytes ">s")
      (bytes "ACGTACGTTTACGT") 14 ⟨bytes "s", 5, 12, 0, bytes "ACGTTTACGT"⟩ (by decide)⟩

/-! ### The sequence accumulator -/

theorem memcpy_succ (dst : List Nat) (off : Nat) (src : List Nat) (l : Nat) :
    memcpy dst off src (l + 1) = (memcpy dst off src l).set (off + l) (src.getD l 0) := by
  unfold memcpy
  rw [List.range_succ, List.foldl_append]
  rfl

theorem memcpy_length (dst : List Nat) (off : Nat) (src : List Nat) (l : Nat) :
    (memcpy dst off src l).length = dst.length := by
  induction l with
  | zero => rfl
  | succ l ih => rw [memcpy_succ, List.length_set, ih]

/-- A copy that fits in the block leaves the bytes below `off` and puts the source after
them. -/
theorem memcpy_take (dst : List Nat) (off : Nat) (src : List Nat) (l : Nat)
    (h1 : off + l ≤ dst.length) (h2 : l ≤ src.length) :
    (memcpy dst off src l).take (off + l) = dst.take off ++ src.take l := by
  induction l with
  | zero => simp [memcpy]
  | succ l ih =>
    have hl : l < src.length := h2
    rw [memcpy_succ, ← Nat.add_assoc,
      take_set_succ _ _ _ (by rw [memcpy_length]; omega), ih (by omega) (by omega),
      List.take_succ, List.append_assoc]
    simp [List.getD, List.getElem?_eq_getElem hl]

theorem take_length_takeWhile (p : Nat → Bool) (l : List Nat) :
    l.take (l.takeWhile p).length = l.takeWhile p := by
  induction l with
  | nil => rfl
  | cons c cs ih =>
    by_cases h : p c = true
    · simp [List.takeWhile_cons, h, ih]
    · simp [List.takeWhile_cons, h]

theorem strcspn_le (s reject : List Nat) : strcspn s reject ≤ s.length := by
  unfold strcspn
  exact (List.takeWhile_sublist _).length_le

theorem strdup_eq (s : List Nat) (h : s.all (fun c => c != 0) = true) : strdup s = s := by
  unfold strdup
  rw [List.takeWhile_eq_self_iff]
  intro x hx
  exact List.all_eq_true.1 h x hx

/-- On a well-formed line `strcspn(line, "\r\n")` measures the content of the line. -/
theorem take_strcspn_eq (line : List Nat) (h : well_formed line = true) :
    line.take (strcspn line [13, 10]) = strip_ending line := by
  unfold strcspn
  rw [take_length_takeWhile]
  unfold well_formed at h
  rw [Bool.and_eq_true] at h
  obtain ⟨h1, h2⟩ := h
  induction line with
  | nil => rfl
  | cons c cs ih =>
    rw [List.all_cons, Bool.and_eq_true] at h1
    unfold strip_ending at h2 ⊢
    by_cases ha : (c :: cs).all is_eol = true
    · rw [if_pos ha]
      rw [List.all_cons, Bool.and_eq_true] at ha
      have hc : is_eol c = true := ha.1
      have : (c != 0 && !([13, 10].contains c)) = false := by
        unfold is_eol at hc
        rcases Bool.or_eq_true _ _ ▸ hc with h | h
        · have : c = 13 := by simpa using h
          subst this; rfl
        · have : c = 10 := by simpa using h
          subst this; rfl
      rw [List.takeWhile_cons, this]
      rfl
    · rw [if_neg ha] at h2 ⊢
      rw [List.all_cons, Bool.and_eq_true] at h2
      have hc : (c != 0 && !([13, 10].contains c)) = true := by
        have h0 := h1.1
        have he := h2.1
        unfold is_eol at he
        simp at h0 he ⊢
        exact ⟨h0, he.1, he.2⟩
      rw [List.takeWhile_cons, hc]
      simp only [if_true]
      rw [ih h1.2 h2.2]

theorem is_header_iff (line : List Nat) : is_header line = true ↔ line.getD 0 0 = 62 := by
  cases line with
  | nil => simp [is_header]
  | cons c cs => simp [is_header]

theorem line_step_header_first (op : Opts) (mL mR : Nat) (st : Acc) (line : List Nat)
    (hl : line.getD 0 0 = 62) (hh : st.header = none) :
    line_step op mL mR st line = { st with header := some (strdup line) } := by
  unfold line_step
  rw [if_pos hl, hh]

theorem line_step_header_open (op : Opts) (mL mR : Nat) (st : Acc) (line h : List Nat)
    (hl : line.getD 0 0 = 62) (hh : st.header = some h) :
    line_step op mL mR st line = process_seq op mL mR st h line := by
  unfold line_step
  rw [if_pos hl, hh]

/-- A sequence line is appended to the block: header, rows and log are untouched, and the
first `n` bytes of the block grow by the `strcspn(line, "\r\n")` first bytes of the line. -/
theorem line_step_seq (op : Opts) (mL mR : Nat) (st : Acc) (line : List Nat)
    (hl : ¬ line.getD 0 0 = 62) (hi : AccInv st) :
    (line_step op mL mR st line).header = st.header ∧
      (line_step op mL mR st line).out = st.out ∧
      (line_step op mL mR st line).handed = st.handed ∧
      AccInv (line_step op mL mR st line) ∧
      (line_step op mL mR st line).n = st.n + strcspn line [13, 10] ∧
      (line_step op mL mR st line).seq.take (line_step op mL mR st line).n
        = st.seq.take st.n ++ line.take (strcspn line [13, 10]) := by
  obtain ⟨i1, i2⟩ := hi
  have hle := strcspn_le line [13, 10]
  unfold line_step
  rw [if_neg hl]
  by_cases hc : st.n + strcspn line [13, 10] + 1 > st.cap
  · simp only [hc, if_true]
    refine ⟨trivial, trivial, trivial, ⟨?_, ?_⟩, trivial, ?_⟩
    · simp [memcpy_length, realloc_length]
    · simp only; omega
    · rw [memcpy_take _ _ _ _ (by rw [realloc_length]; omega) hle,
        realloc_take _ _ _ (by omega) (by omega)]
  · simp only [hc, if_false]
    refine ⟨trivial, trivial, trivial, ⟨?_, ?_⟩, trivial, ?_⟩
    · simp [memcpy_length, i1]
    · simp only; omega
    · rw [memcpy_take _ _ _ _ (by omega) hle]

/-- The state of the accumulator after a run of lines, started with a record open: the
records handed over so far, followed by the open record, are the open record of the start
extended by the leading sequence lines, followed by the records of the later headers. -/
theorem acc_fold (op : Opts) (mL mR : Nat) (lines : List (List Nat)) :
    ∀ (st : Acc) (h : List Nat), st.header = some h → AccInv st →
      (∀ l ∈ lines, well_formed l = true) →
      ∃ h', (lines.foldl (line_step op mL mR) st).header = some h' ∧
        AccInv (lines.foldl (line_step op mL mR) st) ∧
        (lines.foldl (line_step op mL mR) st).handed ++
            [(h', (lines.foldl (line_step op mL mR) st).seq.take
              (lines.foldl (line_step op mL mR) st).n)]
          = st.handed ++ ((h, st.seq.take st.n ++ seq_of lines) :: all_records lines) := by
  induction lines with
  | nil =>
    intro st h hh hi _
    exact ⟨h, hh, hi, by simp [seq_of, all_records]⟩
  | cons l rest ih =>
    intro st h hh hi hw
    have hwl : well_formed l = true := hw l (List.mem_cons_self _ _)
    have hwr : ∀ x ∈ rest, well_formed x = true := fun x hx => hw x (List.mem_cons_of_mem _ hx)
    rw [List.foldl_cons]
    by_cases hl : is_header l = true
    · have hl' := (is_header_iff l).1 hl
      have hd : strdup l = l := by
        unfold well_formed at hwl
        rw [Bool.and_eq_true] at hwl
        exact strdup_eq l hwl.1
      rw [line_step_header_open op mL mR st l h hl' hh]
      obtain ⟨h', e1, e2, e3⟩ := ih (process_seq op mL mR st h l) l
        (by unfold process_seq; rw [hd]) (by unfold process_seq AccInv; simp) hwr
      refine ⟨h', e1, e2, ?_⟩
      rw [e3]
      unfold process_seq
      simp [seq_of, all_records, hl]
    · have hl' : ¬ l.getD 0 0 = 62 := fun h => hl ((is_header_iff l).2 h)
      obtain ⟨s1, _, s3, s4, _, s6⟩ := line_step_seq op mL mR st l hl' hi
      obtain ⟨h', e1, e2, e3⟩ := ih (line_step op mL mR st l) h (by rw [s1, hh]) s4 hwr
      refine ⟨h', e1, e2, ?_⟩
      rw [e3, s3, s6, take_strcspn_eq l hwl]
      simp [seq_of, all_records, hl]

theorem handed_spec_snoc (lines : List (List Nat)) (A : List (List Nat × List Nat))
    (h' s : List Nat) (e : all_records lines = A ++ [(h', s)]) :
    handed_spec lines = if s = [] then A else A ++ [(h', s)] := by
  unfold handed_spec
  rw [e, List.getLast?_append, List.getLast?_singleton]
  cases s with
  | nil => simp
  | cons c cs => simp

/-- C10. Record assembly: for a source that begins with a header line and whose lines hold
no NUL and no CR or LF besides their trailing line ending, the records on which the block
`process_seq` runs are, in input order and once each, the pairs of a header line and the
concatenated contents of the lines up to the next header line or the end of input, except
a final record whose sequence is empty. -/
theorem record_assembly (op : Opts) (mL mR : Nat) (h : List Nat) (rest : List (List Nat))
    (out : List Row) (hh : is_header h = true)
    (hw : ∀ l ∈ h :: rest, well_formed l = true) :
    (run_source op mL mR (h :: rest) out).handed = handed_spec (h :: rest) := by
  have hwh : well_formed h = true := hw h (List.mem_cons_self _ _)
  have hd : strdup h = h := by
    unfold well_formed at hwh
    rw [Bool.and_eq_true] at hwh
    exact strdup_eq h hwh.1
  obtain ⟨h', e1, e2, e3⟩ := acc_fold op mL mR rest
    { header := some h, seq := [], cap := 0, n := 0, out := out, handed := [] } h rfl
    (by unfold AccInv; simp) (fun x hx => hw x (List.mem_cons_of_mem _ hx))
  have hrec : all_records (h :: rest) = (h, seq_of rest) :: all_records rest := by
    simp [all_records, hh]
  have e3' : (rest.foldl (line_step op mL mR)
        { header := some h, seq := [], cap := 0, n := 0, out := out, handed := [] }).handed ++
      [(h', (rest.foldl (line_step op mL mR)
        { header := some h, seq := [], cap := 0, n := 0, out := out, handed := [] }).seq.take
        (rest.foldl (line_step op mL mR)
        { header := some h, seq := [], cap := 0, n := 0, out := out, handed := [] }).n)]
      = all_records (h :: rest) := by
    rw [e3, hrec]; simp
  rw [handed_spec_snoc _ _ _ _ e3'.symm]
  unfold run_source
  rw [List.foldl_cons,
    line_step_header_first op mL mR _ h ((is_header_iff h).1 hh) rfl, hd]
  simp only
  rw [e1]
  simp only
  obtain ⟨i1, i2⟩ := e2
  by_cases hn : (rest.foldl (line_step op mL mR)
      { header := some h, seq := [], cap := 0, n := 0, out := out, handed := [] }).n = 0
  · rw [if_neg (by rw [hn]; exact fun h => h rfl), hn, List.take_zero, if_pos rfl]
  · have hne : (rest.foldl (line_step op mL mR)
        { header := some h, seq := [], cap := 0, n := 0, out := out, handed := [] }).seq.take
        (rest.foldl (line_step op mL mR)
        { header := some h, seq := [], cap := 0, n := 0, out := out, handed := [] }).n ≠ [] := by
      intro hnil
      have := congrArg List.length hnil
      rw [List.length_take, List.length_nil] at this
      omega
    rw [if_pos hn, if_neg hne]
    rfl

/-- Witness of C10: two records over three sequence lines with LF and CRLF endings, a record
with no sequence line in the middle, and a last line without line ending. -/
theorem record_assembly_witness :
    (is_header (bytes ">a x\n") = true ∧
      ∀ l ∈ [bytes ">a x\n", bytes "AC\n", bytes "GT\r\n", bytes ">b\n", bytes ">c\n",
        bytes "TT"], well_formed l = true) ∧
    (run_source ⟨bytes "ACGT", bytes "ACGT", 0, 3, 0, 0, 2⟩ 4 4
        [bytes ">a x\n", bytes "AC\n", bytes "GT\r\n", bytes ">b\n", bytes ">c\n", bytes "TT"]
        []).handed
      = handed_spec
        [bytes ">a x\n", bytes "AC\n", bytes "GT\r\n", bytes ">b\n", bytes ">c\n", bytes "TT"] :=
  ⟨⟨by decide, by decide⟩,
    record_assembly ⟨bytes "ACGT", bytes "ACGT", 0, 3, 0, 0, 2⟩ 4 4 (bytes ">a x\n")
      [bytes "AC\n", bytes "GT\r\n", bytes ">b\n", bytes ">c\n", bytes "TT"] []
      (by decide) (by decide)⟩

/-- The reference list of records on two small sources: a record without sequence lines is
kept in the middle and left out at the end. -/
theorem handed_spec_example :
    handed_spec
        [bytes ">a x\n", bytes "AC\n", bytes "GT\r\n", bytes ">b\n", bytes ">c\n", bytes "TT"]
      = [(bytes ">a x\n", bytes "ACGT"), (bytes ">b\n", []), (bytes ">c\n", bytes "TT")] ∧
    handed_spec [bytes ">a\n", bytes "AC\n", bytes ">b\n"] = [(bytes ">a\n", bytes "AC")] := by
  decide

/-! ### Sequence lines before the first header -/

/-- C9 (failing input). With left = right = `ACGT`, gap 0 and no mismatch allowed, the source
`ACGT`, `>id`, `ACGT` hands over the record `>id` with the sequence `ACGTACGT`, which holds
the line read before the header, and a row is written for it; the same source without
its first line hands over the sequence `ACGT` and writes no row. -/
theorem preheader_data_kept :
    main ⟨bytes "ACGT", bytes "ACGT", 0, 0, 0, 0, 0⟩ true
        [some [bytes "ACGT\n", bytes ">id\n", bytes "ACGT\n"]]
      = some ⟨header_line, [⟨bytes "id", 1, 8, 0, bytes "ACGTACGT"⟩]⟩ ∧
    main ⟨bytes "ACGT", bytes "ACGT", 0, 0, 0, 0, 0⟩ true
        [some [bytes ">id\n", bytes "ACGT\n"]]
      = some ⟨header_line, []⟩ ∧
    (run_source ⟨bytes "ACGT", bytes "ACGT", 0, 0, 0, 0, 0⟩ 4 4
        [bytes "ACGT\n", bytes ">id\n", bytes "ACGT\n"] []).handed
      = [(bytes ">id\n", bytes "ACGTACGT")] ∧
    (run_source ⟨bytes "ACGT", bytes "ACGT", 0, 0, 0, 0, 0⟩ 4 4
        [bytes ">id\n", bytes "ACGT\n"] []).handed
      = [(bytes ">id\n", bytes "ACGT")] := by
  decide

/-! ### The end-to-end scenario -/

/-- The header of a record enters its rows through the `seq_id` column only. -/
theorem process_rows_header (op : Opts) (mL mR : Nat) (header seq : List Nat) (n : Nat) :
    process_rows op mL mR header seq n [] =
      (process_rows op mL mR [] seq n []).map
        (fun r => { r with seq_id := print_seq_id (header.drop 1) }) := by
  rw [process_rows_eq, process_rows_eq, List.nil_append, List.nil_append, List.map_filterMap]
  congr 1
  funext i
  unfold row_of_hit
  by_cases hm : (search_right seq n op.right mL mR op.err_right op.gap_min op.gap_max
      i).best_end ≠ -1
  · rw [if_pos hm, if_pos hm]; rfl
  · rw [if_neg hm, if_neg hm]; rfl

theorem line_step_seq_eq (op : Opts) (mL mR : Nat) (st : Acc) (line : List Nat)
    (hl : ¬ line.getD 0 0 = 62) :
    line_step op mL mR st line =
      { st with
        seq := memcpy
          (if st.n + strcspn line [13, 10] + 1 > st.cap
            then realloc st.seq ((st.n + strcspn line [13, 10] + 1) * 2) else st.seq)
          st.n line (strcspn line [13, 10])
        cap := if st.n + strcspn line [13, 10] + 1 > st.cap
          then (st.n + strcspn line [13, 10] + 1) * 2 else st.cap
        n := st.n + strcspn line [13, 10] } := by
  unfold line_step
  rw [if_neg hl]
  by_cases hc : st.n + strcspn line [13, 10] + 1 > st.cap
  · simp only [hc, if_true]
  · simp only [hc, if_false]

/-- C8. End-to-end scenario: for a source made of one header line (any bytes after `>`) and
the sequence line `ACGTACGTTTACGT`, with left = right = `ACGT`, no mismatch allowed, gaps 0
to 3 and `after = 2`, the program writes the header line and exactly two rows, in this
order: `(1, 8, 0, ACGTACGTTT)` and `(5, 12, 0, ACGTTTACGT)`, both with the identifier printed
from the header; the record handed over is the 14-byte sequence, its left hits are 0, 4 and
10, and the search for the hit 10 returns no match. -/
theorem scenario_two_rows (hdr : List Nat) :
    main ⟨bytes "ACGT", bytes "ACGT", 0, 3, 0, 0, 2⟩ true
        [some [62 :: hdr, bytes "ACGTACGTTTACGT\n"]] =
      some
        { header_line := bytes "seq_id\tstart\tend\tmismatch\tmotif\n"
          rows :=
            [⟨print_seq_id ((strdup (62 :: hdr)).drop 1), 1, 8, 0, bytes "ACGTACGTTT"⟩,
             ⟨print_seq_id ((strdup (62 :: hdr)).drop 1), 5, 12, 0, bytes "ACGTTTACGT"⟩] } ∧
      (run_source ⟨bytes "ACGT", bytes "ACGT", 0, 3, 0, 0, 2⟩ 4 4
          [62 :: hdr, bytes "ACGTACGTTTACGT\n"] []).handed
        = [(strdup (62 :: hdr), bytes "ACGTACGTTTACGT")] ∧
      (scan_left (bytes "ACGTACGTTTACGT") 14 (bytes "ACGT") 4 0).hits = [0, 4, 10] ∧
      (search_right (bytes "ACGTACGTTTACGT") 14 (bytes "ACGT") 4 4 0 0 3 10).best_end = -1 := by
  have hs : line_step ⟨bytes "ACGT", bytes "ACGT", 0, 3, 0, 0, 2⟩ 4 4
      (line_step ⟨bytes "ACGT", bytes "ACGT", 0, 3, 0, 0, 2⟩ 4 4
        { header := none, seq := [], cap := 0, n := 0, out := [], handed := [] } (62 :: hdr))
      (bytes "ACGTACGTTTACGT\n")
      = { header := some (strdup (62 :: hdr)),
          seq := bytes "ACGTACGTTTACGT" ++ List.replicate 16 0,
          cap := 30, n := 14, out := [], handed := [] } := by
    rw [line_step_header_first _ 4 4 _ (62 :: hdr) rfl rfl,
      line_step_seq_eq _ _ _ _ _ (by decide)]
    have h1 : strcspn (bytes "ACGTACGTTTACGT\n") [13, 10] = 14 := by decide
    simp only [h1]
    have h2 : memcpy (if 0 + 14 + 1 > 0 then realloc [] ((0 + 14 + 1) * 2) else []) 0
        (bytes "ACGTACGTTTACGT\n") 14 = bytes "ACGTACGTTTACGT" ++ List.replicate 16 0 := by
      decide
    rw [h2]
    rfl
  have hrun : run_source ⟨bytes "ACGT", bytes "ACGT", 0, 3, 0, 0, 2⟩ 4 4
      [62 :: hdr, bytes "ACGTACGTTTACGT\n"] []
      = process_seq ⟨bytes "ACGT", bytes "ACGT", 0, 3, 0, 0, 2⟩ 4 4
          { header := some (strdup (62 :: hdr)),
            seq := bytes "ACGTACGTTTACGT" ++ List.replicate 16 0,
            cap := 30, n := 14, out := [], handed := [] }
          (strdup (62 :: hdr)) (bytes "ACGTACGTTTACGT\n") := by
    unfold run_source
    rw [List.foldl_cons, List.foldl_cons, List.foldl_nil, hs]
    rfl
  have hrows : process_rows ⟨bytes "ACGT", bytes "ACGT", 0, 3, 0, 0, 2⟩ 4 4 []
      (bytes "ACGTACGTTTACGT" ++ List.replicate 16 0) 14 []
      = [⟨[], 1, 8, 0, bytes "ACGTACGTTT"⟩, ⟨[], 5, 12, 0, bytes "ACGTTTACGT"⟩] := by
    decide
  refine ⟨?_, ?_, by decide, by decide⟩
  · have hl : strlen (bytes "ACGT") = 4 := by decide
    have hh : header_line = bytes "seq_id\tstart\tend\tmismatch\tmotif\n" := by decide
    unfold main
    simp only [if_true, List.foldl_cons, List.foldl_nil, hl]
    rw [hrun, hh]
    unfold process_seq
    simp only
    rw [process_rows_header, hrows]
    rfl
  · rw [hrun]
    unfold process_seq
    simp only
    have ht : List.take 14 (bytes "ACGTACGTTTACGT" ++ List.replicate 16 0)
        = bytes "ACGTACGTTTACGT" := by decide
    rw [ht]
    rfl

/-! ### Algebra of the comparator -/

theorem mismatchAt_eq (p t : List Nat) (k : Nat) :
    mismatchAt p t k = !iupac_match (p.getD k 0) (t.getD k 0) := by
  unfold mismatchAt iupac_match
  generalize IUPAC (p.getD k 0) &&& IUPAC (t.getD k 0) = x
  rw [bne, Bool.not_not]

theorem iupac_match_comm (a b : Nat) : iupac_match a b = iupac_match b a := by
  unfold iupac_match
  rw [Nat.land_comm]

theorem mismatchAt_comm (p t : List Nat) (k : Nat) : mismatchAt p t k = mismatchAt t p k := by
  rw [mismatchAt_eq, mismatchAt_eq, iupac_match_comm]

/-- The comparator counts the mismatching positions below `m`. -/
theorem hamming_iupac_eq_count (p t : List Nat) (m : Nat) :
    hamming_iupac p t m = ((List.range m).filter (mismatchAt p t)).length := by
  induction m with
  | zero => rfl
  | succ m ih =>
    rw [hamming_iupac_succ, ih, List.range_succ, List.filter_append, List.length_append]
    by_cases h : mismatchAt p t m = true
    · simp [h]
    · simp [h]

/-- C13. Comparator symmetry: `match(a, b) = match(b, a)` for all bytes, where `match(a, b)`
is `IUPAC[a] & IUPAC[b] != 0`; hence `hamming_iupac(p, t, m) = hamming_iupac(t, p, m)` for
all windows. -/
theorem comparator_symmetric :
    (∀ a b : Nat, iupac_match a b = iupac_match b a) ∧
      (∀ (p t : List Nat) (k : Nat), mismatchAt p t k = mismatchAt t p k) ∧
      (∀ (p t : List Nat) (m : Nat), hamming_iupac p t m = hamming_iupac t p m) := by
  refine ⟨iupac_match_comm, mismatchAt_comm, ?_⟩
  intro p t m
  induction m with
  | zero => rfl
  | succ m ih => rw [hamming_iupac_succ, hamming_iupac_succ, ih, mismatchAt_comm]

/-! ### The table -/

theorem IUPAC_le (c : Nat) : IUPAC c ≤ 15 := by
  unfold IUPAC
  split <;> omega

theorem IUPAC_unrecognized (c : Nat) (hc : c ∉ valid_symbols) : IUPAC c = 0 := by
  unfold IUPAC
  split <;> first | rfl | exact absurd (by decide) hc

theorem IUPAC_valid_pos : ∀ x ∈ valid_symbols, 0 < IUPAC x := by
  decide

theorem iupac_match_self (a : Nat) : iupac_match a a = true ↔ IUPAC a ≠ 0 := by
  unfold iupac_match
  rw [Nat.and_self]
  simp

theorem iupac_match_zero_left (a b : Nat) (h : IUPAC a = 0) : iupac_match a b = false := by
  unfold iupac_match
  rw [h, Nat.zero_and]
  rfl

theorem hamming_iupac_no_mismatch (p t : List Nat) (m : Nat)
    (h : ∀ k, k < m → mismatchAt p t k = false) : hamming_iupac p t m = 0 := by
  induction m with
  | zero => rfl
  | succ m ih =>
    rw [hamming_iupac_succ, ih (fun k hk => h k (Nat.lt_succ_of_lt hk)), h m (Nat.lt_succ_self m)]
    rfl

/-- C14 (counterexample). The byte `X` has the empty mask and does not match itself, and
the window `ACXT` compared with itself has one mismatch. -/
theorem reflexive_fails_on_unrecognized :
    iupac_match 88 88 = false ∧ hamming_iupac (bytes "ACXT") (bytes "ACXT") 4 = 1 := by
  decide

/-- C14 (amended). Matching is reflexive on the valid nucleotide symbols: a byte matches
itself exactly when its mask is not empty, every valid symbol does, and
`hamming_iupac(w, w, m) = 0` for every window `w` whose `m` bytes are valid symbols. -/
theorem comparator_reflexive_on_valid (w : List Nat) (m : Nat)
    (hw : ∀ k, k < m → w.getD k 0 ∈ valid_symbols) :
    (∀ a : Nat, iupac_match a a = true ↔ IUPAC a ≠ 0) ∧
      (∀ a ∈ valid_symbols, iupac_match a a = true) ∧
      hamming_iupac w w m = 0 := by
  have hv : ∀ a ∈ valid_symbols, iupac_match a a = true := fun a ha =>
    (iupac_match_self a).2 (Nat.pos_iff_ne_zero.1 (IUPAC_valid_pos a ha))
  refine ⟨iupac_match_self, hv, ?_⟩
  apply hamming_iupac_no_mismatch
  intro k hk
  rw [mismatchAt_eq, hv _ (hw k hk)]
  rfl

/-- Witness of C14 (amended): the window `ACGTN`. -/
theorem comparator_reflexive_on_valid_witness :
    (∀ k, k < 5 → (bytes "ACGTN").getD k 0 ∈ valid_symbols) ∧
    ((∀ a : Nat, iupac_match a a = true ↔ IUPAC a ≠ 0) ∧
      (∀ a ∈ valid_symbols, iupac_match a a = true) ∧
      hamming_iupac (bytes "ACGTN") (bytes "ACGTN") 5 = 0) :=
  ⟨by decide, comparator_reflexive_on_valid (bytes "ACGTN") 5 (by decide)⟩

/-- C15. Valid symbols and N: for each of the 16 nucleotide letters `x`, in upper or lower
case, the mask `IUPAC[x]` is a non-empty subset of the four base bits, is the same for the
upper-case and the lower-case form of `x`, and `N` and `n` match `x`; the mask of `N` and of
`n` is the full set 15. -/
theorem valid_symbols_masks (x : Nat) (hx : x ∈ valid_symbols) :
    0 < IUPAC x ∧ IUPAC x ≤ 15 ∧
      IUPAC (tolower x) = IUPAC x ∧ IUPAC (toupper x) = IUPAC x ∧
      tolower x ∈ valid_symbols ∧ toupper x ∈ valid_symbols ∧
      iupac_match 78 x = true ∧ iupac_match 110 x = true ∧
      IUPAC 78 = 15 ∧ IUPAC 110 = 15 := by
  have h : ∀ x ∈ valid_symbols,
      0 < IUPAC x ∧ IUPAC x ≤ 15 ∧
      IUPAC (tolower x) = IUPAC x ∧ IUPAC (toupper x) = IUPAC x ∧
      tolower x ∈ valid_symbols ∧ toupper x ∈ valid_symbols ∧
      iupac_match 78 x = true ∧ iupac_match 110 x = true ∧
      IUPAC 78 = 15 ∧ IUPAC 110 = 15 := by
    decide
  exact h x hx

/-- Witness of C15: the lower-case symbol `r`. -/
theorem valid_symbols_masks_witness :
    114 ∈ valid_symbols ∧
    (0 < IUPAC 114 ∧ IUPAC 114 ≤ 15 ∧
      IUPAC (tolower 114) = IUPAC 114 ∧ IUPAC (toupper 114) = IUPAC 114 ∧
      tolower 114 ∈ valid_symbols ∧ toupper 114 ∈ valid_symbols ∧
      iupac_match 78 114 = true ∧ iupac_match 110 114 = true ∧
      IUPAC 78 = 15 ∧ IUPAC 110 = 15) :=
  ⟨by decide, valid_symbols_masks 114 (by decide)⟩

/-- C16. Unrecognized symbols never match: a byte `c` that is none of the 16 nucleotide
letters in either case has the mask 0 and matches no byte, itself and `N` included, on
either side; a window position that holds `c` in the pattern or in the target is a
mismatch and adds exactly one to `hamming_iupac`, which is the number of mismatching
positions. -/
theorem unrecognized_never_match (c : Nat) (hc : c ∉ valid_symbols) :
    IUPAC c = 0 ∧
      (∀ x : Nat, iupac_match c x = false ∧ iupac_match x c = false) ∧
      iupac_match c c = false ∧ iupac_match c 78 = false ∧
      (∀ (p t : List Nat) (k : Nat), p.getD k 0 = c ∨ t.getD k 0 = c →
        mismatchAt p t k = true ∧ hamming_iupac p t (k + 1) = hamming_iupac p t k + 1) ∧
      (∀ (p t : List Nat) (m : Nat),
        hamming_iupac p t m = ((List.range m).filter (mismatchAt p t)).length) := by
  have h0 := IUPAC_unrecognized c hc
  have hm : ∀ x : Nat, iupac_match c x = false ∧ iupac_match x c = false := fun x =>
    ⟨iupac_match_zero_left c x h0, by rw [iupac_match_comm]; exact iupac_match_zero_left c x h0⟩
  refine ⟨h0, hm, (hm c).1, (hm 78).1, ?_, hamming_iupac_eq_count⟩
  intro p t k hk
  have hmis : mismatchAt p t k = true := by
    rw [mismatchAt_eq]
    rcases hk with h | h
    · rw [h, (hm _).1]; rfl
    · rw [h, (hm _).2]; rfl
  exact ⟨hmis, by rw [hamming_iupac_succ, hmis]; rfl⟩

/-- Witness of C16: the gap character `-`. -/
theorem unrecognized_never_match_witness :
    45 ∉ valid_symbols ∧
    (IUPAC 45 = 0 ∧
      (∀ x : Nat, iupac_match 45 x = false ∧ iupac_match x 45 = false) ∧
      iupac_match 45 45 = false ∧ iupac_match 45 78 = false ∧
      (∀ (p t : List Nat) (k : Nat), p.getD k 0 = 45 ∨ t.getD k 0 = 45 →
        mismatchAt p t k = true ∧ hamming_iupac p t (k + 1) = hamming_iupac p t k + 1) ∧
      (∀ (p t : List Nat) (m : Nat),
        hamming_iupac p t m = ((List.range m).filter (mismatchAt p t)).length)) :=
  ⟨by decide, unrecognized_never_match 45 (by decide)⟩

/-! ### The stop at zero mismatches -/

theorem search_loop_nostop_done (seq : List Nat) (n : Nat) (right : List Nat) (mL mR : Nat)
    (err : Int) (gap_max i fuel gap : Nat) (st : Best) (hg : ¬ gap ≤ gap_max) :
    search_loop_nostop seq n right mL mR err gap_max i (fuel + 1) gap st = st := by
  simp [search_loop_nostop, hg]

theorem search_loop_nostop_oob (seq : List Nat) (n : Nat) (right : List Nat) (mL mR : Nat)
    (err : Int) (gap_max i fuel gap : Nat) (st : Best) (hg : gap ≤ gap_max)
    (hb : ge_size (right_end i mL mR gap) n = true) :
    search_loop_nostop seq n right mL mR err gap_max i (fuel + 1) gap st = st := by
  simp [search_loop_nostop, hg, hb]

theorem search_loop_nostop_better (seq : List Nat) (n : Nat) (right : List Nat) (mL mR : Nat)
    (err : Int) (gap_max i fuel gap : Nat) (st : Best) (hg : gap ≤ gap_max)
    (hb : ge_size (right_end i mL mR gap) n = false)
    (h1 : ham seq right mL mR i gap ≤ err) (h2 : ham seq right mL mR i gap < st.best_mismR) :
    search_loop_nostop seq n right mL mR err gap_max i (fuel + 1) gap st =
      search_loop_nostop seq n right mL mR err gap_max i fuel (gap + 1)
        { best_end := right_end i mL mR gap, best_mismR := ham seq right mL mR i gap,
          calls := st.calls ++ [gap] } := by
  unfold ham at h1 h2 ⊢
  rw [search_loop_nostop]
  simp only [hg, hb, if_true, Bool.false_eq_true, if_false]
  rw [if_pos ⟨h1, h2⟩]

theorem search_loop_nostop_next (seq : List Nat) (n : Nat) (right : List Nat) (mL mR : Nat)
    (err : Int) (gap_max i fuel gap : Nat) (st : Best) (hg : gap ≤ gap_max)
    (hb : ge_size (right_end i mL mR gap) n = false)
    (hc : ¬ (ham seq right mL mR i gap ≤ err ∧ ham seq right mL mR i gap < st.best_mismR)) :
    search_loop_nostop seq n right mL mR err gap_max i (fuel + 1) gap st =
      search_loop_nostop seq n right mL mR err gap_max i fuel (gap + 1)
        { st with calls := st.calls ++ [gap] } := by
  unfold ham at hc
  rw [search_loop_nostop]
  simp only [hg, hb, if_true, Bool.false_eq_true, if_false]
  rw [if_neg hc]

/-- Once the best mismatch count is 0, the loop that does not stop keeps the best pair. -/
theorem search_loop_nostop_at_zero (seq : List Nat) (n : Nat) (right : List Nat) (mL mR : Nat)
    (err : Int) (gap_max i : Nat) :
    ∀ (fuel gap : Nat) (st : Best), st.best_mismR ≤ 0 →
      (search_loop_nostop seq n right mL mR err gap_max i fuel gap st).best_end = st.best_end ∧
      (search_loop_nostop seq n right mL mR err gap_max i fuel gap st).best_mismR
        = st.best_mismR := by
  intro fuel
  induction fuel with
  | zero => intro gap st _; exact ⟨rfl, rfl⟩
  | succ fuel ih =>
    intro gap st hz
    by_cases hg : gap ≤ gap_max
    · by_cases hb : ge_size (right_end i mL mR gap) n = true
      · rw [search_loop_nostop_oob _ _ _ _ _ _ _ _ _ _ _ hg hb]
        exact ⟨rfl, rfl⟩
      · rw [Bool.not_eq_true] at hb
        have hc : ¬ (ham seq right mL mR i gap ≤ err ∧
            ham seq right mL mR i gap < st.best_mismR) := by
          have := ham_nonneg seq right mL mR i gap
          intro h
          omega
        rw [search_loop_nostop_next _ _ _ _ _ _ _ _ _ _ _ hg hb hc]
        exact ih (gap + 1) { st with calls := st.calls ++ [gap] } hz
    · rw [search_loop_nostop_done _ _ _ _ _ _ _ _ _ _ _ hg]
      exact ⟨rfl, rfl⟩

/-- The loop with the stop and the loop without it leave the same best pair when started
from states with the same best pair. -/
theorem search_loop_eq_nostop (seq : List Nat) (n : Nat) (right : List Nat) (mL mR : Nat)
    (err : Int) (gap_max i : Nat) :
    ∀ (fuel gap : Nat) (st st' : Best), st.best_end = st'.best_end →
      st.best_mismR = st'.best_mismR →
      (search_loop seq n right mL mR err gap_max i fuel gap st).best_end =
        (search_loop_nostop seq n right mL mR err gap_max i fuel gap st').best_end ∧
      (search_loop seq n right mL mR err gap_max i fuel gap st).best_mismR =
        (search_loop_nostop seq n right mL mR err gap_max i fuel gap st').best_mismR := by
  intro fuel
  induction fuel with
  | zero => intro gap st st' h1 h2; exact ⟨h1, h2⟩
  | succ fuel ih =>
    intro gap st st' h1 h2
    by_cases hg : gap ≤ gap_max
    · by_cases hb : ge_size (right_end i mL mR gap) n = true
      · rw [search_loop_oob _ _ _ _ _ _ _ _ _ _ _ hg hb,
          search_loop_nostop_oob _ _ _ _ _ _ _ _ _ _ _ hg hb]
        exact ⟨h1, h2⟩
      · rw [Bool.not_eq_true] at hb
        by_cases hc : ham seq right mL mR i gap ≤ err ∧ ham seq right mL mR i gap < st.best_mismR
        · have hc' : ham seq right mL mR i gap < st'.best_mismR := by rw [← h2]; exact hc.2
          rw [search_loop_nostop_better _ _ _ _ _ _ _ _ _ _ _ hg hb hc.1 hc']
          by_cases hz : ham seq right mL mR i gap = 0
          · rw [search_loop_zero_hit _ _ _ _ _ _ _ _ _ _ _ hg hb hc.1 hc.2 hz]
            obtain ⟨e1, e2⟩ := search_loop_nostop_at_zero seq n right mL mR err gap_max i fuel
              (gap + 1)
              { best_end := right_end i mL mR gap, best_mismR := ham seq right mL mR i gap,
                calls := st'.calls ++ [gap] } (le_of_eq hz)
            exact ⟨e1.symm, e2.symm⟩
          · rw [search_loop_better _ _ _ _ _ _ _ _ _ _ _ hg hb hc.1 hc.2 hz]
            exact ih _ _ _ rfl rfl
        · have hc' : ¬ (ham seq right mL mR i gap ≤ err ∧
              ham seq right mL mR i gap < st'.best_mismR) := by rw [← h2]; exact hc
          rw [search_loop_next _ _ _ _ _ _ _ _ _ _ _ hg hb hc,
            search_loop_nostop_next _ _ _ _ _ _ _ _ _ _ _ hg hb hc']
          exact ih _ _ _ h1 h2
    · rw [search_loop_done _ _ _ _ _ _ _ _ _ _ _ hg,
        search_loop_nostop_done _ _ _ _ _ _ _ _ _ _ _ hg]
      exact ⟨h1, h2⟩

/-- C17. Zero-mismatch stop is result-preserving: the per-hit search, which leaves the gap
loop as soon as a candidate with mismatch count 0 is recorded, returns the same `best_end`
and `best_mismR` as the variant that goes on through all remaining gaps. -/
theorem search_right_zero_stop (seq : List Nat) (n : Nat) (right : List Nat) (mL mR : Nat)
    (err : Int) (gap_min gap_max i : Nat) :
    (search_right seq n right mL mR err gap_min gap_max i).best_end =
        (search_right_nostop seq n right mL mR err gap_min gap_max i).best_end ∧
      (search_right seq n right mL mR err gap_min gap_max i).best_mismR =
        (search_right_nostop seq n right mL mR err gap_min gap_max i).best_mismR :=
  search_loop_eq_nostop seq n right mL mR err gap_max i (gap_max + 1 - gap_min) gap_min
    _ _ rfl rfl

/-- The two loops of C17 on the hit 0 of `ACGTACGTACGT` with right anchor `ACGT`, gaps 0 to 4:
the search stops after the call at gap 0, the variant calls the comparator at gaps 0 to 4,
and both return the end 7 with 0 mismatches. -/
theorem search_right_zero_stop_example :
    search_right (bytes "ACGTACGTACGT") 12 (bytes "ACGT") 4 4 0 0 4 0
      = { best_end := 7, best_mismR := 0, calls := [0] } ∧
    search_right_nostop (bytes "ACGTACGTACGT") 12 (bytes "ACGT") 4 4 0 0 4 0
      = { best_end := 7, best_mismR := 0, calls := [0, 1, 2, 3, 4] } := by
  decide

/-! ### The identifier -/

theorem head_dropWhile_not (p : Nat → Bool) (l : List Nat) (c : Nat)
    (h : (l.dropWhile p).head? = some c) : p c = false := by
  induction l with
  | nil => simp at h
  | cons x xs ih =>
    by_cases hx : p x = true
    · rw [List.dropWhile_cons, if_pos hx] at h
      exact ih h
    · rw [List.dropWhile_cons, if_neg hx] at h
      simp only [List.head?_cons, Option.some.injEq] at h
      rw [← h]
      simpa using hx

theorem print_seq_id_eq (header : List Nat) :
    print_seq_id header =
      (header.dropWhile (fun c => c != 0 && isspace c)).takeWhile
        (fun c => c != 0 && !([32, 9, 13, 10].contains c)) := by
  unfold print_seq_id strcspn
  exact take_length_takeWhile _ _

/-- C11 (counterexample). For the header line `>id`, VT, `x y`, the identifier printed is
`id`, VT, `x`: it holds the vertical tab, which `isspace` counts as whitespace, and is longer
than the first run of non-whitespace bytes `id`; the row written by `main` carries it. -/
theorem seq_id_keeps_vertical_tab :
    print_seq_id ((strdup [62, 105, 100, 11, 120, 32, 121, 10]).drop 1) = [105, 100, 11, 120] ∧
      11 ∈ print_seq_id ((strdup [62, 105, 100, 11, 120, 32, 121, 10]).drop 1) ∧
      isspace 11 = true ∧
      main ⟨bytes "ACGT", bytes "ACGT", 0, 0, 0, 0, 0⟩ true
          [some [[62, 105, 100, 11, 120, 32, 121, 10], bytes "ACGTACGT\n"]]
        = some ⟨header_line, [⟨[105, 100, 11, 120], 1, 8, 0, bytes "ACGTACGT"⟩]⟩ := by
  decide

/-- C11 (amended). Identifier extraction: the `seq_id` of a row is printed from the header
after its marker by skipping the leading `isspace` bytes (space, tab, LF, VT, FF, CR) and
taking the maximal run of bytes other than space, tab, CR, LF and NUL; so it holds no space,
tab, CR, LF or NUL, it does not begin with an `isspace` byte, and the byte that follows it
in the header, if any, is a space, tab, CR, LF or NUL. -/
theorem seq_id_token (op : Opts) (mL : Nat) (header seq : List Nat) (n i : Nat) (st : Best) :
    (emit_row op mL header seq n i st).seq_id =
        ((header.drop 1).dropWhile (fun c => c != 0 && isspace c)).takeWhile
          (fun c => c != 0 && !([32, 9, 13, 10].contains c)) ∧
      (∀ c ∈ (emit_row op mL header seq n i st).seq_id,
        c ≠ 0 ∧ c ≠ 32 ∧ c ≠ 9 ∧ c ≠ 13 ∧ c ≠ 10) ∧
      (∀ c, (emit_row op mL header seq n i st).seq_id.head? = some c → isspace c = false) ∧
      (∃ rest, (header.drop 1).dropWhile (fun c => c != 0 && isspace c)
          = (emit_row op mL header seq n i st).seq_id ++ rest ∧
        ∀ c, rest.head? = some c → c = 0 ∨ c = 32 ∨ c = 9 ∨ c = 13 ∨ c = 10) := by
  have he : (emit_row op mL header seq n i st).seq_id = print_seq_id (header.drop 1) := rfl
  rw [he, print_seq_id_eq]
  refine ⟨rfl, ?_, ?_, ?_⟩
  · intro c hc
    have := List.mem_takeWhile_imp hc
    simp at this
    exact ⟨this.1, this.2.1, this.2.2.1, this.2.2.2.1, this.2.2.2.2⟩
  · intro c hc
    rw [List.head?_takeWhile] at hc
    cases hd : ((header.drop 1).dropWhile (fun c => c != 0 && isspace c)).head? with
    | none => rw [hd] at hc; simp at hc
    | some d =>
      rw [hd] at hc
      have hp := head_dropWhile_not _ _ _ hd
      by_cases hq : (d != 0 && !([32, 9, 13, 10].contains d)) = true
      · simp only [Option.filter, hq, if_true, Option.some.injEq] at hc
        subst hc
        rw [Bool.and_eq_true] at hq
        rw [Bool.and_eq_false_iff] at hp
        rcases hp with hp | hp
        · rw [hp] at hq; exact absurd hq.1 (by decide)
        · exact hp
      · simp only [Option.filter, hq] at hc
        exact absurd hc (by simp)
  · refine ⟨((header.drop 1).dropWhile (fun c => c != 0 && isspace c)).dropWhile
        (fun c => c != 0 && !([32, 9, 13, 10].contains c)),
      (List.takeWhile_append_dropWhile _ _).symm, ?_⟩
    intro c hc
    have := head_dropWhile_not _ _ _ hc
    simp at this
    by_cases h0 : c = 0
    · exact Or.inl h0
    · right
      have := this h0
      omega

/-! ### A carriage return inside a sequence line -/

/-- C18 (failing input). The sequence line `AC`, CR, `GT`, LF read while the record `>s` is
open: its content without the trailing line ending is `AC`, CR, `GT` (5 bytes), but the step
appends only `AC` (`n` becomes 2), and the record handed over at the end of input has the
sequence `AC`, not the sequence `AC`, CR, `GT` of the input format. -/
theorem interior_cr_truncates :
    strip_ending (bytes "AC\rGT\n") = bytes "AC\rGT" ∧
      strcspn (bytes "AC\rGT\n") [13, 10] = 2 ∧
      (line_step ⟨bytes "ACGT", bytes "ACGT", 0, 0, 0, 0, 0⟩ 4 4
        { header := some (bytes ">s\n"), seq := [], cap := 0, n := 0, out := [], handed := [] }
        (bytes "AC\rGT\n")).n = 2 ∧
      (run_source ⟨bytes "ACGT", bytes "ACGT", 0, 0, 0, 0, 0⟩ 4 4
        [bytes ">s\n", bytes "AC\rGT\n"] []).handed = [(bytes ">s\n", bytes "AC")] ∧
      handed_spec [bytes ">s\n", bytes "AC\rGT\n"] = [(bytes ">s\n", bytes "AC\rGT")] := by
  decide

/-! ### Independence of the input sources -/

theorem process_seq_out (op : Opts) (mL mR : Nat) (st : Acc) (h line : List Nat)
    (o : List Row) :
    process_seq op mL mR { st with out := o ++ st.out } h line =
      { process_seq op mL mR st h line with
        out := o ++ (process_seq op mL mR st h line).out } := by
  unfold process_seq
  simp only
  rw [process_rows_eq, process_rows_eq op mL mR h st.seq st.n st.out, List.append_assoc]

theorem line_step_out (op : Opts) (mL mR : Nat) (st : Acc) (line : List Nat) (o : List Row) :
    line_step op mL mR { st with out := o ++ st.out } line =
      { line_step op mL mR st line with out := o ++ (line_step op mL mR st line).out } := by
  by_cases hl : line.getD 0 0 = 62
  · cases hh : st.header with
    | none =>
      rw [line_step_header_first op mL mR _ line hl rfl,
        line_step_header_first op mL mR st line hl hh]
    | some h =>
      rw [line_step_header_open op mL mR _ line h hl rfl,
        line_step_header_open op mL mR st line h hl hh]
      exact process_seq_out op mL mR st h line o
  · rw [line_step_seq_eq op mL mR _ line hl, line_step_seq_eq op mL mR st line hl]

theorem line_fold_out (op : Opts) (mL mR : Nat) (lines : List (List Nat)) :
    ∀ (st : Acc) (o : List Row),
      lines.foldl (line_step op mL mR) { st with out := o ++ st.out } =
        { lines.foldl (line_step op mL mR) st with
          out := o ++ (lines.foldl (line_step op mL mR) st).out } := by
  induction lines with
  | nil => intro st o; rfl
  | cons l rest ih =>
    intro st o
    rw [List.foldl_cons, List.foldl_cons, line_step_out, ih]

/-- The rows of a source are appended to the rows written before it, and the records handed
over do not depend on those rows. -/
theorem run_source_out (op : Opts) (mL mR : Nat) (lines : List (List Nat)) (o : List Row) :
    (run_source op mL mR lines o).out = o ++ (run_source op mL mR lines []).out ∧
      (run_source op mL mR lines o).handed = (run_source op mL mR lines []).handed := by
  have h := line_fold_out op mL mR lines
    { header := none, seq := [], cap := 0, n := 0, out := [], handed := [] } o
  rw [List.append_nil] at h
  unfold run_source
  simp only
  rw [h]
  generalize lines.foldl (line_step op mL mR)
    { header := none, seq := [], cap := 0, n := 0, out := [], handed := [] } = st
  cases hh : st.header with
  | none => exact ⟨rfl, rfl⟩
  | some hd =>
    simp only
    by_cases hn : st.n ≠ 0
    · rw [if_pos hn, if_pos hn, process_seq_out]
      exact ⟨rfl, rfl⟩
    · rw [if_neg hn, if_neg hn]
      exact ⟨rfl, rfl⟩

theorem source_fold_rows (op : Opts) (mL mR : Nat) (sources : List (Option (List (List Nat)))) :
    ∀ out : List Row,
      sources.foldl (fun out src =>
          match src with
          | some lines => (run_source op mL mR lines out).out
          | none => out) out
        = out ++ (sources.map (fun src =>
          match src with
          | some lines => (run_source op mL mR lines []).out
          | none => [])).flatten := by
  induction sources with
  | nil => intro out; simp
  | cons s rest ih =>
    intro out
    rw [List.foldl_cons, ih, List.map_cons, List.flatten_cons]
    cases s with
    | none => simp
    | some lines =>
      simp only
      rw [(run_source_out op mL mR lines out).1, List.append_assoc]

theorem source_rows_eq (op : Opts) (src : Option (List (List Nat))) :
    source_rows op src =
      match src with
      | some lines => (run_source op (strlen op.left) (strlen op.right) lines []).out
      | none => [] := by
  unfold source_rows main
  cases src <;> rfl

/-- C12. Source independence: the rows written for a list of input sources are the
concatenation, in source order, of the rows each source produces when processed alone (a
source that cannot be opened produces none); each source starts from the empty accumulator,
so the records handed over for a source depend on its lines only. -/
theorem source_independence (op : Opts) (sources : List (Option (List (List Nat)))) :
    main op true sources =
        some { header_line := header_line,
               rows := (sources.map (source_rows op)).flatten } ∧
      (∀ src, main op true [src] =
        some { header_line := header_line, rows := source_rows op src }) ∧
      (∀ (mL mR : Nat) (lines : List (List Nat)) (out : List Row),
        (run_source op mL mR lines out).out = out ++ (run_source op mL mR lines []).out ∧
        (run_source op mL mR lines out).handed = (run_source op mL mR lines []).handed) := by
  have hm : ∀ srcs : List (Option (List (List Nat))), main op true srcs =
      some { header_line := header_line,
             rows := (srcs.map (source_rows op)).flatten } := by
    intro srcs
    unfold main
    simp only [if_true]
    rw [source_fold_rows, List.nil_append]
    have : source_rows op = fun src =>
        match src with
        | some lines => (run_source op (strlen op.left) (strlen op.right) lines []).out
        | none => [] := funext (source_rows_eq op)
    rw [this]
  refine ⟨hm sources, ?_, fun mL mR lines out => run_source_out op mL mR lines out⟩
  intro src
  rw [hm [src]]
  simp

/-- The sources of C12 on an example: a header without sequence at the end of one source and
headerless data at the start of the next one form no record, while the same lines in one
source do. -/
theorem source_independence_example :
    main ⟨bytes "ACGT", bytes "ACGT", 0, 0, 0, 0, 0⟩ true
        [some [bytes ">a\n"], some [bytes "ACGTACGT\n"]]
      = some ⟨header_line, []⟩ ∧
    main ⟨bytes "ACGT", bytes "ACGT", 0, 0, 0, 0, 0⟩ true
        [some [bytes ">a\n", bytes "ACGTACGT\n"]]
      = some ⟨header_line, [⟨bytes "a", 1, 8, 0, bytes "ACGTACGT"⟩]⟩ := by
  decide

/-! ### Bounds of the memory accesses -/

theorem scan_left_step_eq (seq left : List Nat) (mL : Nat) (err : Int) (b : HitBuf) (i : Nat) :
    scan_left_step seq left mL err b i =
      if (hamming_iupac left (seq.drop i) mL : Int) ≤ err then
        { hit_grow b with pos := (hit_grow b).pos.set (hit_grow b).cnt i,
                          cnt := (hit_grow b).cnt + 1 }
      else b :=
  rfl

/-- In a state of the scan loop, after the doubling step the store index `*cnt` is below the
capacity, which is the length of the block. -/
theorem hit_grow_in_block (b : HitBuf) (s : List Nat) (h : ScanInv b s) :
    (hit_grow b).cnt < (hit_grow b).capacity ∧
      (hit_grow b).capacity = (hit_grow b).pos.length := by
  obtain ⟨h1, h2, h3, _⟩ := h
  unfold hit_grow
  by_cases hc : b.cnt ≥ b.capacity
  · rw [if_pos hc]
    simp only [realloc_length]
    exact ⟨by omega, trivial⟩
  · rw [if_neg hc]
    exact ⟨by omega, h1⟩

/-- A row written for a record is the row of a left hit with a returned match. -/
theorem mem_process_rows (op : Opts) (mL mR : Nat) (header seq : List Nat) (n : Nat)
    (r : Row) (hr : r ∈ process_rows op mL mR header seq n []) :
    ∃ i, i ∈ (scan_left seq n op.left mL op.err_left).hits ∧
      (search_right seq n op.right mL mR op.err_right op.gap_min op.gap_max i).best_end ≠ -1 ∧
      r = emit_row op mL header seq n i
        (search_right seq n op.right mL mR op.err_right op.gap_min op.gap_max i) := by
  rw [process_rows_eq, List.nil_append, List.mem_filterMap] at hr
  obtain ⟨i, hi, hrow⟩ := hr
  unfold row_of_hit at hrow
  by_cases hm : (search_right seq n op.right mL mR op.err_right op.gap_min op.gap_max
      i).best_end ≠ -1
  · rw [if_pos hm] at hrow
    exact ⟨i, hi, hm, (Option.some.inj hrow).symm⟩
  · rw [if_neg hm] at hrow
    exact absurd hrow (by simp)

/-- C19. In-bounds access: for anchors of length at least 1, (a) `scan_left` runs its loop
body on the offsets `0 .. n - mL` and each of them has `i + mL ≤ n`, so the comparator reads
inside `[0, n)`; (b) in every state of that loop the store into the hit list, made after
the doubling step, is at an index below the capacity of the block; (c) every gap at which
the right-anchor search calls the comparator has `j + mR ≤ n` for `j = i + mL + gap`; (d)
for a returned match the motif slice `[i, ext_end]` has `i ≤ ext_end ≤ n - 1`, and the
count passed to `fwrite` is `ext_end - i + 1`. -/
theorem in_bounds_access (op : Opts) (mL mR : Nat) (header seq : List Nat) (n : Nat)
    (hL : 1 ≤ mL) (hR : 1 ≤ mR) :
    (scan_left seq n op.left mL op.err_left =
        (List.range (Int.toNat ((n : Int) - (mL : Int) + 1))).foldl
          (scan_left_step seq op.left mL op.err_left)
          { pos := List.replicate 128 0, cnt := 0, capacity := 128 } ∧
      ∀ i ∈ List.range (Int.toNat ((n : Int) - (mL : Int) + 1)), i + mL ≤ n) ∧
    (∀ k i : Nat,
      (hit_grow ((List.range k).foldl (scan_left_step seq op.left mL op.err_left)
          { pos := List.replicate 128 0, cnt := 0, capacity := 128 })).cnt
        < (hit_grow ((List.range k).foldl (scan_left_step seq op.left mL op.err_left)
          { pos := List.replicate 128 0, cnt := 0, capacity := 128 })).pos.length ∧
      scan_left_step seq op.left mL op.err_left
          ((List.range k).foldl (scan_left_step seq op.left mL op.err_left)
            { pos := List.replicate 128 0, cnt := 0, capacity := 128 }) i
        = if (hamming_iupac op.left (seq.drop i) mL : Int) ≤ op.err_left then
            { hit_grow ((List.range k).foldl (scan_left_step seq op.left mL op.err_left)
                { pos := List.replicate 128 0, cnt := 0, capacity := 128 }) with
              pos := (hit_grow ((List.range k).foldl
                  (scan_left_step seq op.left mL op.err_left)
                  { pos := List.replicate 128 0, cnt := 0, capacity := 128 })).pos.set
                (hit_grow ((List.range k).foldl (scan_left_step seq op.left mL op.err_left)
                  { pos := List.replicate 128 0, cnt := 0, capacity := 128 })).cnt i,
              cnt := (hit_grow ((List.range k).foldl
                  (scan_left_step seq op.left mL op.err_left)
                  { pos := List.replicate 128 0, cnt := 0, capacity := 128 })).cnt + 1 }
          else (List.range k).foldl (scan_left_step seq op.left mL op.err_left)
            { pos := List.replicate 128 0, cnt := 0, capacity := 128 }) ∧
    (∀ i g : Nat,
      g ∈ (search_right seq n op.right mL mR op.err_right op.gap_min op.gap_max i).calls →
        op.gap_min ≤ g ∧ g ≤ op.gap_max ∧ i + mL + g + mR ≤ n) ∧
    (∀ i : Nat,
      i ∈ (scan_left seq n op.left mL op.err_left).hits →
      (search_right seq n op.right mL mR op.err_right op.gap_min op.gap_max i).best_end ≠ -1 →
        (i : Int) ≤ ext_end
          (search_right seq n op.right mL mR op.err_right op.gap_min op.gap_max i).best_end
          op.after n ∧
        ext_end
          (search_right seq n op.right mL mR op.err_right op.gap_min op.gap_max i).best_end
          op.after n ≤ (n : Int) - 1 ∧
        (emit_row op mL header seq n i
          (search_right seq n op.right mL mR op.err_right op.gap_min op.gap_max i)).motif
          = (seq.drop i).take (Int.toNat (ext_end
              (search_right seq n op.right mL mR op.err_right op.gap_min op.gap_max
                i).best_end op.after n - (i : Int) + 1)) ∧
        i + Int.toNat (ext_end
            (search_right seq n op.right mL mR op.err_right op.gap_min op.gap_max
              i).best_end op.after n - (i : Int) + 1) ≤ n) := by
  refine ⟨⟨rfl, ?_⟩, ?_, ?_, ?_⟩
  · intro i hi
    rw [List.mem_range] at hi
    omega
  · intro k i
    have hinv := scan_left_fold_inv seq op.left mL op.err_left (List.range k)
      { pos := List.replicate 128 0, cnt := 0, capacity := 128 } [] (by simp [ScanInv])
    obtain ⟨g1, g2⟩ := hit_grow_in_block _ _ hinv
    exact ⟨by rw [← g2]; exact g1, scan_left_step_eq _ _ _ _ _ _⟩
  · intro i g hg
    rcases search_loop_calls _ _ _ _ _ _ _ _ _ _ _ _ hg with h | ⟨h1, h2, h3⟩
    · simp at h
    · rw [ge_size_false_iff] at h3
      unfold right_end at h3
      exact ⟨h1, h2, by omega⟩
  · intro i _ hm
    obtain ⟨g, _, _, g0, g1, g2, _, _⟩ :=
      search_right_matched seq n op.right mL mR op.err_right op.gap_min op.gap_max i hm
    have hx := ext_end_eq
      (search_right seq n op.right mL mR op.err_right op.gap_min op.gap_max i).best_end
      op.after n (by omega)
    have hge : (i : Int) + 1 ≤ right_end i mL mR g := by unfold right_end; omega
    refine ⟨by omega, by omega, rfl, by omega⟩

/-- Witness of C19: the record `ACGTACGTTTACGT` with both anchors `ACGT`, gaps 0 to 3 and
`after = 2`. -/
theorem in_bounds_access_witness :
    (1 ≤ 4 ∧ 1 ≤ 4) ∧
    ∀ i : Nat,
      i ∈ (scan_left (bytes "ACGTACGTTTACGT") 14 (bytes "ACGT") 4 0).hits →
      (search_right (bytes "ACGTACGTTTACGT") 14 (bytes "ACGT") 4 4 0 0 3 i).best_end ≠ -1 →
        (i : Int) ≤ ext_end
          (search_right (bytes "ACGTACGTTTACGT") 14 (bytes "ACGT") 4 4 0 0 3 i).best_end 2 14 ∧
        ext_end
          (search_right (bytes "ACGTACGTTTACGT") 14 (bytes "ACGT") 4 4 0 0 3 i).best_end 2 14
          ≤ ((14 : Nat) : Int) - 1 ∧
        (emit_row ⟨bytes "ACGT", bytes "ACGT", 0, 3, 0, 0, 2⟩ 4 (bytes ">s")
          (bytes "ACGTACGTTTACGT") 14 i
          (search_right (bytes "ACGTACGTTTACGT") 14 (bytes "ACGT") 4 4 0 0 3 i)).motif
          = ((bytes "ACGTACGTTTACGT").drop i).take (Int.toNat (ext_end
              (search_right (bytes "ACGTACGTTTACGT") 14 (bytes "ACGT") 4 4 0 0 3
                i).best_end 2 14 - (i : Int) + 1)) ∧
        i + Int.toNat (ext_end
            (search_right (bytes "ACGTACGTTTACGT") 14 (bytes "ACGT") 4 4 0 0 3
              i).best_end 2 14 - (i : Int) + 1) ≤ 14 :=
  ⟨⟨by decide, by decide⟩,
    (in_bounds_access ⟨bytes "ACGT", bytes "ACGT", 0, 3, 0, 0, 2⟩ 4 4 (bytes ">s")
      (bytes "ACGTACGTTTACGT") 14 (by decide) (by decide)).2.2.2⟩

/-! ### The end column against the start column -/

/-- C20. The end column is not bounded below by the start column: for the record `ACGTACGT`
with left = right = `ACGT`, gap 0, no mismatch allowed and `after = 10`, the program writes
one row with start 1 and end -2; and for every row written for any record, the end value
is at most the 1-based right-anchor end `best_end + 1` of the match of its hit. -/
theorem end_col_below_start :
    main ⟨bytes "ACGT", bytes "ACGT", 0, 0, 0, 0, 10⟩ true
        [some [bytes ">s\n", bytes "ACGTACGT\n"]]
      = some ⟨header_line, [⟨bytes "s", 1, -2, 0, bytes "ACGTACGT"⟩]⟩ ∧
    (∀ (op : Opts) (mL mR : Nat) (header seq : List Nat) (n : Nat) (r : Row),
      r ∈ process_rows op mL mR header seq n [] →
      ∃ i, i ∈ (scan_left seq n op.left mL op.err_left).hits ∧
        (search_right seq n op.right mL mR op.err_right op.gap_min op.gap_max i).best_end
          ≠ -1 ∧
        r.start = (i : Int) + 1 ∧
        r.end_col ≤
          (search_right seq n op.right mL mR op.err_right op.gap_min op.gap_max i).best_end
            + 1) := by
  refine ⟨by decide, ?_⟩
  intro op mL mR header seq n r hr
  obtain ⟨i, hi, hm, hre⟩ := mem_process_rows op mL mR header seq n r hr
  obtain ⟨g, _, _, g0, g1, g2, _, _⟩ :=
    search_right_matched seq n op.right mL mR op.err_right op.gap_min op.gap_max i hm
  have hx := ext_end_eq
    (search_right seq n op.right mL mR op.err_right op.gap_min op.gap_max i).best_end
    op.after n (by omega)
  have he : r.end_col = ext_end
      (search_right seq n op.right mL mR op.err_right op.gap_min op.gap_max i).best_end
      op.after n + 1 - (op.after : Int) := by rw [hre]; rfl
  refine ⟨i, hi, hm, by rw [hre]; rfl, ?_⟩
  rw [he, hx]
  omega

end MotifFinder
